import Mathlib

/-!
Verification of the XML utility layer (`ncclient/xml_.py`) and the retrieve
operation builders (`ncclient/operations/retrieve.py`) of the ncclient
repository, as a shallow embedding in Lean.

The repository code is Python 2 built on `xml.etree.cElementTree`.  The
embedding models:

* An `Element` tree (qualified tag, attribute list, text, ordered children),
  mirroring `xml.etree` elements as used by this code base.  Child order is a
  list; the attribute mapping of a Python dict is modelled as an association
  list in canonical (key-sorted) order, the order the Py2.7 serialiser writes.
* The ElementTree library behaviour this layer delegates to:
  - `ET.tostring` (Py2.7): cdata/attribute escaping, an XML declaration for
    encodings other than lower-case utf-8 / us-ascii, attributes written in
    sorted order, and namespace-prefix rewriting — every `\x7buri\x7dlocal`
    tag or key is written as `pfx:local`, with all `xmlns:pfx` declarations
    collected on the root element, prefixes drawn from the process-wide
    registry (`register_namespace`, which in this program holds the seven
    entries ElementTree ships plus the five `xml_.py` registers at import)
    or generated as `ns0`, `ns1`, …;
  - `ET.fromstring`: a recursive-descent parse with namespace resolution —
    `xmlns` / `xmlns:p` attributes extend the in-scope mapping and are removed
    from the attribute list, prefixed names and default-namespaced tags become
    `\x7buri\x7dlocal`, and an unbound prefix is a parse error;
  - `ET.iterparse` as used by `parse_root`: the input file is read in
    16384-character blocks, each block is fed to the expat parser *before*
    events are pulled, so a well-formedness violation detectable inside the
    first block raises before the first start event is returned, while a
    merely truncated construct at the end of the block is buffered without
    error.  The feed-time error detection is modelled by a character-level
    state machine over a simplified XML grammar (close-tag mismatch, junk
    after the root element, malformed tag syntax, `<` inside attribute
    values); it compares raw (unexpanded) close-tag names and treats
    entity references and `<!`/`<?` constructs leniently, and a root open
    tag that does not fit inside the first block is out of the model's scope.
  Child tail text is dropped by the parser model.
* The repository functions `qualify`, `to_xml`, `to_ele`, `parse_root`,
  `validated_element`, `new_ele`, the `Get` / `GetConfig` request builders
  and the `GetReply` parsing hook and data views, translated line by line.

Python exceptions are modelled with `Except`: `XMLError` raised by
`validated_element`, the parser error raised by `ET.fromstring` and
`ET.iterparse`, and the type error raised when `ET.tostring` is applied to
`None`.
-/

/-- Whitespace characters as treated by the XML scanner model. -/
def isSpaceChar (c : Char) : Bool :=
  c == ' ' || c == '\n' || c == '\t' || c == '\r'

/-- Characters allowed in the element and attribute names of the XML model
(a simplification of the XML name grammar; it excludes all the structural
delimiter characters, which is what the proofs rely on). -/
def nameChar (c : Char) : Bool :=
  c.isAlpha || c.isDigit || c == '_' || c == '-' || c == '.' || c == ':'

/-- Model of `xml.etree` element trees as used by `ncclient.xml_`: a tag (in
`\x7bnamespace\x7dlocal` form when qualified), the attribute mapping in
canonical key order, the text content (`""` standing for Python `None`), and
the ordered children. -/
inductive Element where
  | mk (tag : String) (attrib : List (String × String)) (text : String) (children : List Element)
deriving Repr

def Element.tag : Element → String
  | .mk t _ _ _ => t

def Element.attrib : Element → List (String × String)
  | .mk _ a _ _ => a

def Element.text : Element → String
  | .mk _ _ x _ => x

def Element.children : Element → List Element
  | .mk _ _ _ ch => ch

/-- Model of `Element.find(tag)` for a plain tag path: the first direct child
whose tag matches. -/
def Element.findChild (e : Element) (tag : String) : Option Element :=
  e.children.find? (fun c => c.tag == tag)

/-- `startsWithChars l p` holds when the char list `p` is a prefix of `l`. -/
def startsWithChars : List Char → List Char → Bool
  | _, [] => true
  | [], _ :: _ => false
  | c :: cs, p :: ps => c == p && startsWithChars cs ps

/-- Escaping of one character of cdata text, as in ElementTree
`_escape_cdata`. -/
def escCdataChar (c : Char) : List Char :=
  if c = '&' then ("&amp;").data
  else if c = '<' then ("&lt;").data
  else if c = '>' then ("&gt;").data
  else [c]

/-- Escaping of one character of an attribute value, as in ElementTree
`_escape_attrib`. -/
def escAttribChar (c : Char) : List Char :=
  if c = '&' then ("&amp;").data
  else if c = '<' then ("&lt;").data
  else if c = '>' then ("&gt;").data
  else if c = '"' then ("&quot;").data
  else [c]

def escMap (f : Char → List Char) : List Char → List Char
  | [] => []
  | c :: cs => f c ++ escMap f cs

def escCdata (l : List Char) : List Char := escMap escCdataChar l

def escAttrib (l : List Char) : List Char := escMap escAttribChar l

/-- Decoding of an XML character entity name. -/
def decodeEnt (e : List Char) : List Char :=
  if e = ("amp").data then ['&']
  else if e = ("lt").data then ['<']
  else if e = ("gt").data then ['>']
  else if e = ("quot").data then ['"']
  else if e = ("apos").data then ['\x27']
  else '&' :: (e ++ [';'])

/-- Entity-reference decoding pass of the parser model, with fuel. -/
def unescapeAux : Nat → List Char → List Char
  | 0, l => l
  | Nat.succ fuel, l =>
    match l with
    | [] => []
    | c :: cs =>
      if c = '&' then
        let ent := cs.takeWhile (fun d => d != ';')
        let rest := cs.dropWhile (fun d => d != ';')
        if startsWithChars rest (';' :: []) then decodeEnt ent ++ unescapeAux fuel (rest.drop 1)
        else c :: cs
      else c :: unescapeAux fuel cs

def unescape (l : List Char) : List Char := unescapeAux l.length l

/-- Serialisation of an attribute list: ` k="v"` for each pair, values
escaped, in list order. -/
def attrsChars : List (String × String) → List Char
  | [] => []
  | (k, v) :: rest => ' ' :: (k.data ++ '=' :: '"' :: (escAttrib v.data ++ '"' :: attrsChars rest))

/-! ### Namespace registry -/

/-- `BASE_NS_1_0`, the base NETCONF namespace and default of `qualify`. -/
def BASE_NS_1_0 : String := "urn:ietf:params:xml:ns:netconf:base:1.0"

/-- `TAILF_AAA_1_1` from `xml_.py`. -/
def TAILF_AAA_1_1 : String := "http://tail-f.com/ns/aaa/1.1"

/-- `TAILF_EXECD_1_1` from `xml_.py`. -/
def TAILF_EXECD_1_1 : String := "http://tail-f.com/ns/execd/1.1"

/-- `CISCO_CPI_1_0` from `xml_.py`. -/
def CISCO_CPI_1_0 : String := "http://www.cisco.com/cpi_10/schema"

/-- `FLOWMON_1_0` from `xml_.py`. -/
def FLOWMON_1_0 : String := "http://www.liberouter.org/ns/netopeer/flowmon/1.0"

/-- The implicit XML namespace, bound to the reserved prefix `xml`. -/
def XML_NAMESPACE : String := "http://www.w3.org/XML/1998/namespace"

/-- The process-wide `ElementTree._namespace_map` of this program after
`xml_.py` runs its `register_namespace` loop: the seven entries Py2.7
ElementTree ships with, plus the five the repository registers. -/
def namespace_map : List (String × String) :=
  [(XML_NAMESPACE, "xml"),
   ("http://www.w3.org/1999/xhtml", "html"),
   ("http://www.w3.org/1999/02/22-rdf-syntax-ns#", "rdf"),
   ("http://schemas.xmlsoap.org/wsdl/", "wsdl"),
   ("http://www.w3.org/2001/XMLSchema", "xs"),
   ("http://www.w3.org/2001/XMLSchema-instance", "xsi"),
   ("http://purl.org/dc/elements/1.1/", "dc"),
   (BASE_NS_1_0, "nc"),
   (TAILF_AAA_1_1, "aaa"),
   (TAILF_EXECD_1_1, "execd"),
   (CISCO_CPI_1_0, "cpi"),
   (FLOWMON_1_0, "fm")]

def wellKnownPfx (uri : String) : Option String := namespace_map.lookup uri

/-- Parsing a qualified tag back into its `(namespace, local)` fields. -/
def splitQualified (s : String) : Option String × String :=
  if startsWithChars s.data ('{' :: []) then
    let rest := s.data.drop 1
    match rest.dropWhile (fun c => c != '}') with
    | '}' :: loc => (some (String.mk (rest.takeWhile (fun c => c != '}'))), String.mk loc)
    | _ => (none, s)
  else (none, s)

/-- `ncclient.xml_.qualify`: `tag if ns is None else "\x7b%s\x7d%s" % (ns, tag)`. -/
def qualify (tag : String) (ns : Option String) : String :=
  match ns with
  | none => tag
  | some n => (("\x7b" ++ n) ++ ("\x7d" ++ tag))

/-- `qualify` at its default namespace argument `BASE_NS_1_0`. -/
def qualifyD (tag : String) : String := qualify tag (some BASE_NS_1_0)

/-! ### Serialisation-side namespace machinery (Py2.7 `_namespaces`) -/

/-- One step of the namespace-collection pass `_namespaces` performs: assign
a prefix to `uri` unless one is assigned already — the registered prefix
when the registry has one, else a generated `ns%d` — and record it, except
for the reserved `xml` prefix, which is used but never declared. -/
def addNs (env : List (String × String)) (uri : String) : List (String × String) :=
  match env.lookup uri with
  | some _ => env
  | none =>
    let p := match wellKnownPfx uri with
      | some p => p
      | none => ("ns" ++ Nat.repr env.length)
    if p = ("xml") then env else env ++ [(uri, p)]

/-- Collect the namespace of one tag or attribute key. -/
def collectName (env : List (String × String)) (s : String) : List (String × String) :=
  match splitQualified s with
  | (some u, _) => addNs env u
  | (none, _) => env

def collectAttrNames (env : List (String × String)) :
    List (String × String) → List (String × String)
  | [] => env
  | (k, _) :: rest => collectAttrNames (collectName env k) rest

mutual
/-- Namespace-collection over a whole element tree, as `_namespaces` walks
it: the element tag, then its attribute keys, then the children. -/
def collectE (env : List (String × String)) : Element → List (String × String)
  | .mk t a _ ch => collectL (collectAttrNames (collectName env t) a) ch
def collectL (env : List (String × String)) : List Element → List (String × String)
  | [] => env
  | c :: cs => collectL (collectE env c) cs
end

/-- The qualified-to-written name map (`qnames` in `_namespaces`): a
`\x7buri\x7dlocal` name is written `pfx:local` (or bare `local` for an empty
prefix); the reserved `xml` prefix is used without being declared; plain
names pass through. -/
def qn (env : List (String × String)) (s : String) : String :=
  match splitQualified s with
  | (some u, l) =>
    if u = XML_NAMESPACE then ("xml:" ++ l)
    else
      match env.lookup u with
      | some p => if p.isEmpty then l else (p ++ (":" ++ l))
      | none => s
  | (none, _) => s

/-- The attribute key under which a namespace declaration for prefix `p` is
written: `xmlns` for the empty prefix, else `xmlns:p`. -/
def declKey (p : String) : String :=
  if p.isEmpty then ("xmlns") else ("xmlns:" ++ p)

/-- The `xmlns` declaration attributes for a collected `(uri, pfx)`
environment, in list order. -/
def declAttrs (env : List (String × String)) : List (String × String) :=
  env.map (fun x => (declKey x.2, x.1))

/-- Lexicographic (byte-wise) order on char lists, the order Python 2 string
comparison and therefore `sorted` uses. -/
def lexLt : List Char → List Char → Bool
  | [], [] => false
  | [], _ :: _ => true
  | _ :: _, [] => false
  | a :: as, b :: bs =>
    if a.toNat < b.toNat then true
    else if b.toNat < a.toNat then false
    else lexLt as bs

def strLtB (a b : String) : Bool := lexLt a.data b.data

def strLeB (a b : String) : Bool := !strLtB b a

/-- Orientation swap between the serialiser environment `(uri, pfx)` and the
parser environment `(pfx, uri)`. -/
def swapPairs (l : List (String × String)) : List (String × String) :=
  l.map (fun x => (x.2, x.1))

/-- The Py2.7 serialiser writes namespace declarations sorted by prefix. -/
def sortEnv (env : List (String × String)) : List (String × String) :=
  List.insertionSort (fun x y : String × String => strLeB x.2 y.2 = true) env

/-- The Py2.7 serialiser writes attributes in sorted key order. -/
def sortAttrs (a : List (String × String)) : List (String × String) :=
  List.insertionSort (fun x y : String × String => strLeB x.1 y.1 = true) a

/-- Attribute keys rewritten through the qualified-name map. -/
def qKeys (q : String → String) (a : List (String × String)) : List (String × String) :=
  a.map (fun p => (q p.1, p.2))

mutual
/-- Serialisation of one element, modelling Py2.7 `_serialize_xml`: names
written through the qualified-name map `q`, the declaration attributes `dex`
(non-empty only on the root element) followed by the element's own
attributes in sorted key order, `<tag … />` when there is no text and no
child, else `<tag …>text…children…</tag>`. -/
def serEQD (q : String → String) (dex : List (String × String)) : Element → List Char
  | .mk t a x ch =>
    '<' :: ((q t).data ++ attrsChars (declAttrs dex ++ qKeys q (sortAttrs a)) ++
      (if x.data.isEmpty && ch.isEmpty then ' ' :: '/' :: '>' :: []
       else '>' :: (escCdata x.data ++ serLQ q ch ++ '<' :: '/' :: ((q t).data ++ '>' :: []))))
def serLQ (q : String → String) : List Element → List Char
  | [] => []
  | c :: cs => serEQD q [] c ++ serLQ q cs
end

/-- Whole-document serialisation: collect the namespaces of the tree, declare
them all on the root (sorted by prefix), and write the tree through the
resulting qualified-name map. -/
def serRoot (e : Element) : List Char :=
  serEQD (qn (collectE [] e)) (sortEnv (collectE [] e)) e

/-- The XML declaration ElementTree itself writes (single quotes, trailing
newline) when serialising with an explicit encoding. -/
def xmlDeclSingleQuote (encoding : String) : String :=
  ("<?xml version=\x271.0\x27 encoding=\x27" ++ encoding) ++ ("\x27?>\n")

/-- Model of Python 2.7 `ET.tostring(ele, encoding)`: an XML declaration is
written unless the encoding is `"utf-8"` or `"us-ascii"`, followed by the
serialised element. -/
def ET_tostring (ele : Element) (encoding : String) : String :=
  (if encoding = "utf-8" || encoding = "us-ascii" then ("")
   else xmlDeclSingleQuote encoding) ++ String.mk (serRoot ele)

def strStartsWith (s p : String) : Bool := startsWithChars s.data p.data

/-- `ncclient.xml_.to_xml`: serialise and prepend an XML declaration unless
the serialiser output already starts with one. -/
def to_xml (ele : Element) (encoding : String) : String :=
  let xml := ET_tostring ele encoding
  if strStartsWith xml ("<?xml") then xml
  else (("<?xml version=\"1.0\" encoding=\"" ++ encoding) ++ ("\"?>")) ++ xml

/-- `to_xml` at its default encoding argument `"UTF-8"`. -/
def to_xmlD (ele : Element) : String := to_xml ele ("UTF-8")

/-! ### Parsing-side namespace machinery (expat namespace processing) -/

/-- Splits a raw document name at its first colon: `some (pfx, local)` for a
prefixed name, `none` for an unprefixed one. -/
def resolveSplit (k : String) : Option (String × String) :=
  let p := k.data.takeWhile (fun c => c != ':')
  let rest := k.data.dropWhile (fun c => c != ':')
  if startsWithChars rest (':' :: []) then some (String.mk p, String.mk (rest.drop 1))
  else none

/-- Expansion of a raw *element* name under the in-scope prefix map: a
prefixed name resolves through the map (an unbound prefix is a parse error),
an unprefixed name takes the default namespace when one is declared. -/
def resolveName (E : List (String × String)) (k : String) : Option String :=
  match resolveSplit k with
  | some (p, l) =>
    match E.lookup p with
    | some u => some ((("\x7b" ++ u) ++ ("\x7d" ++ l)))
    | none => none
  | none =>
    match E.lookup ("") with
    | some u => if u.isEmpty then some k else some ((("\x7b" ++ u) ++ ("\x7d" ++ k)))
    | none => some k

/-- Expansion of a raw *attribute* name: as for elements, except that an
unprefixed attribute never takes the default namespace. -/
def resolveKey (E : List (String × String)) (k : String) : Option String :=
  match resolveSplit k with
  | some (p, l) =>
    match E.lookup p with
    | some u => some ((("\x7b" ++ u) ++ ("\x7d" ++ l)))
    | none => none
  | none => some k

def resolveAttrs (E : List (String × String)) :
    List (String × String) → Option (List (String × String))
  | [] => some []
  | (k, v) :: rest =>
    match resolveKey E k, resolveAttrs E rest with
    | some k2, some r => some ((k2, v) :: r)
    | _, _ => none

/-- Separates the namespace-declaration attributes (`xmlns`, `xmlns:p`) of an
open tag — which expat consumes, extending the prefix map — from the regular
attributes, preserving the order of each. -/
def splitDecls : List (String × String) → List (String × String) × List (String × String)
  | [] => ([], [])
  | (k, v) :: rest =>
    let other := splitDecls rest
    if k = ("xmlns") then ((("", v)) :: other.1, other.2)
    else if startsWithChars k.data (("xmlns:").data) then
      ((String.mk (k.data.drop 6), v) :: other.1, other.2)
    else (other.1, (k, v) :: other.2)

/-- The initial prefix map: the reserved `xml` prefix is always bound. -/
def nsEnv0 : List (String × String) := [(("xml"), XML_NAMESPACE)]

/-- Attribute scanner of the parser model: skips blanks, stops at `>` (open
tag) or `/>` (self-closing tag), otherwise reads `name="value"` pairs,
un-escaping the value.  Returns the pairs in document order, the
self-closing flag, and the input after the closing `>`. -/
def parseAttrs : Nat → List Char → Option (List (String × String) × Bool × List Char)
  | 0, _ => none
  | Nat.succ fuel, l =>
    let r := l.dropWhile isSpaceChar
    if startsWithChars r ('/' :: '>' :: []) then some ([], true, r.drop 2)
    else if startsWithChars r ('>' :: []) then some ([], false, r.drop 1)
    else
      let nm := r.takeWhile nameChar
      let r1 := r.dropWhile nameChar
      if nm.isEmpty then none
      else if startsWithChars r1 ('=' :: '"' :: []) then
        let r2 := r1.drop 2
        let v := r2.takeWhile (fun c => c != '"')
        let r3 := r2.dropWhile (fun c => c != '"')
        if startsWithChars r3 ('"' :: []) then
          match parseAttrs fuel (r3.drop 1) with
          | some (rest, sc, r5) => some ((String.mk nm, String.mk (unescape v)) :: rest, sc, r5)
          | none => none
        else none
      else none

mutual
/-- Recursive-descent element parser modelling the work `ET.fromstring` does
on one element: open tag, attributes (whose `xmlns` declarations extend the
prefix map `E` and are dropped from the attribute list), name expansion
(unbound prefix ⇒ error), then either self-closing or text, children and a
matching close tag.  The close-tag comparison is on raw names (expat
compares expanded names; the two agree on consistently prefixed documents
such as the serialiser's output).  Fails (`none`) on malformed input, as the
library parser raises. -/
def parseE : Nat → List (String × String) → List Char → Option (Element × List Char)
  | 0, _, _ => none
  | Nat.succ fuel, E, l =>
    if startsWithChars l ('<' :: []) then
      let r := l.drop 1
      let tg := r.takeWhile nameChar
      let r1 := r.dropWhile nameChar
      if tg.isEmpty then none
      else
        match parseAttrs (r1.length + 1) r1 with
        | none => none
        | some (rawAttrs, sc, r2) =>
          let env := (splitDecls rawAttrs).1 ++ E
          match resolveName env (String.mk tg), resolveAttrs env (splitDecls rawAttrs).2 with
          | some rtag, some rattrs =>
            if sc then some (Element.mk rtag rattrs ("") [], r2)
            else
              let traw := r2.takeWhile (fun c => c != '<')
              let r3 := r2.dropWhile (fun c => c != '<')
              match parseC fuel env r3 with
              | none => none
              | some (ch, r4) =>
                if startsWithChars r4 ('<' :: '/' :: []) then
                  let r5 := r4.drop 2
                  let ctg := r5.takeWhile nameChar
                  let r6 := (r5.dropWhile nameChar).dropWhile isSpaceChar
                  if ctg = tg then
                    if startsWithChars r6 ('>' :: []) then
                      some (Element.mk rtag rattrs (String.mk (unescape traw)) ch, r6.drop 1)
                    else none
                  else none
                else none
          | _, _ => none
    else none
/-- Child-sequence parser: elements until the enclosing close tag `</` is
seen; the text between children (tail text) is consumed and dropped. -/
def parseC : Nat → List (String × String) → List Char → Option (List Element × List Char)
  | 0, _, _ => none
  | Nat.succ fuel, E, l =>
    if startsWithChars l ('<' :: '/' :: []) then some ([], l)
    else if startsWithChars l ('<' :: []) then
      match parseE fuel E l with
      | none => none
      | some (e, r1) =>
        let r2 := r1.dropWhile (fun c => c != '<')
        match parseC fuel E r2 with
        | none => none
        | some (es, r3) => some (e :: es, r3)
    else none
end

/-- Drops input through the first `>` (used to skip an XML declaration). -/
def dropThroughGt : List Char → List Char
  | [] => []
  | c :: r => if c = '>' then r else dropThroughGt r

/-- Skips leading whitespace and one optional `<?…?>` prolog. -/
def skipProlog (l : List Char) : List Char :=
  let r := l.dropWhile isSpaceChar
  if startsWithChars r ('<' :: '?' :: []) then (dropThroughGt (r.drop 2)).dropWhile isSpaceChar
  else r

/-- Model of `ET.fromstring`: parse a whole document (prolog, root element)
with the initial prefix map, requiring nothing but whitespace after the root
element. -/
def ET_fromstring (raw : String) : Option Element :=
  let l := skipProlog raw.data
  match parseE (l.length + 1) nsEnv0 l with
  | some (e, rest) => if (rest.dropWhile isSpaceChar).isEmpty then some e else none
  | none => none

/-! ### The feed-time scanner of `iterparse` -/

/-- The exception kinds this layer can raise: `XMLError` (the structural error
class the repository itself defines), the `xml.etree` parse error, and the
Python type error raised when `ET.tostring` is handed `None`. -/
inductive PyError where
  | xmlError (message : String)
  | parseError (message : String)
  | typeError (message : String)
deriving Repr, DecidableEq

def PyError.isXMLError : PyError → Bool
  | .xmlError _ => true
  | _ => false

/-- The argument of `to_ele` / `validated_element`: either XML text or an
already-built element (Python duck-typing made explicit). -/
inductive XmlInput where
  | text (s : String)
  | element (e : Element)

/-- `ncclient.xml_.to_ele`: an element is returned as is; text is parsed with
`ET.fromstring`, whose failure is the parse error of the library (uncaught by
`to_ele`). -/
def to_ele : XmlInput → Except PyError Element
  | .element e => .ok e
  | .text s =>
    match ET_fromstring s with
    | some e => .ok e
    | none => .error (.parseError ("syntax error"))

/-- A `tags` / attribute-requirement argument of `validated_element`: a single
string or a sequence of alternatives (`isinstance(x, basestring)` in the
source). -/
inductive StrOrSeq where
  | str (s : String)
  | seq (l : List String)

def strOrSeqList : StrOrSeq → List String
  | .str s => [s]
  | .seq l => l

/-- Python truthiness of a `tags` argument (`None`, `""` and `[]` are falsy). -/
def truthyOpt : Option StrOrSeq → Bool
  | none => false
  | some (.str s) => !s.isEmpty
  | some (.seq l) => !l.isEmpty

/-- Python truthiness of an `attrs` argument (`None` and `[]` are falsy). -/
def truthyOptList : Option (List StrOrSeq) → Bool
  | none => false
  | some l => !l.isEmpty

/-- The tag check of `validated_element`: `ele.tag not in tags` raises
`XMLError("Element [%s] does not meet requirement" % ele.tag)`. -/
def checkTags (ele : Element) (tags : List String) : Except PyError Unit :=
  if tags.contains ele.tag then .ok ()
  else .error (.xmlError (("Element [" ++ ele.tag) ++ ("] does not meet requirement")))

/-- One requirement group is satisfied when any of its alternative names is a
key of the attribute mapping (`alt in ele.attrib`). -/
def reqSatisfied (ele : Element) (req : StrOrSeq) : Bool :=
  (strOrSeqList req).any (fun alt => ele.attrib.any (fun p => p.1 == alt))

/-- The attribute check of `validated_element`: a `for … else: raise` over the
requirement groups — the first group with no alternative present raises
`XMLError("Element [%s] does not have required attributes" % ele.tag)`. -/
def checkAttrs (ele : Element) : List StrOrSeq → Except PyError Unit
  | [] => .ok ()
  | req :: rest =>
    if reqSatisfied ele req then checkAttrs ele rest
    else .error (.xmlError (("Element [" ++ ele.tag) ++ ("] does not have required attributes")))

/-- `ncclient.xml_.validated_element`: coerce, then the optional tag check,
then the optional attribute check, and on success return the coerced element
itself. -/
def validated_element (x : XmlInput) (tags : Option StrOrSeq)
    (attrs : Option (List StrOrSeq)) : Except PyError Element :=
  match to_ele x with
  | .error err => .error err
  | .ok ele =>
    match (if truthyOpt tags then checkTags ele (strOrSeqList (tags.getD (.seq [])))
           else .ok ()) with
    | .error err => .error err
    | .ok _ =>
      match (if truthyOptList attrs then checkAttrs ele (attrs.getD []) else .ok ()) with
      | .error err => .error err
      | .ok _ => .ok ele

/-! ### Operations -/

/-- `ncclient.xml_.new_ele`: `ET.Element(tag, attrs)`. -/
def new_ele (tag : String) (attrs : List (String × String)) : Element :=
  .mk tag attrs ("") []

/-- `node.append(child)` on an element tree. -/
def Element.appendChild : Element → Element → Element
  | .mk t a x ch, child => .mk t a x (ch ++ [child])

/-- `Get.request` (`ncclient/operations/retrieve.py`): builds the `get`
element handed to `self._request`; the filter-encoding collaborator
`util.build_filter` is an abstract function argument. -/
def Get.request (build_filter : String → Element) (filter : Option String) : Element :=
  let node := new_ele ("get") []
  match filter with
  | none => node
  | some f => node.appendChild (build_filter f)

/-- `GetConfig.request`: builds the `get-config` element handed to
`self._request`; `util.datastore_or_url` (with the capability-assert callback
`self._assert`) and `util.build_filter` are abstract function arguments. -/
def GetConfig.request {α : Type} (datastore_or_url : String → String → α → Element)
    (build_filter : String → Element) (assertFn : α)
    (source : String) (filter : Option String) : Element :=
  let node := (new_ele ("get-config") []).appendChild
    (datastore_or_url ("source") source assertFn)
  match filter with
  | none => node
  | some f => node.appendChild (build_filter f)

/-- Modelled from the spec: the state of the base `RPCReply` wrapper (class
`rpc.RPCReply`, not part of the sources here) after its lazy `parse()` has run
the base parsing — the structured errors it recorded and the reply root
element.  The lazy `unparsed → parsed` transition itself is collapsed: every
view below triggers `parse()` first, so all views observe this state. -/
structure GetReply where
  errors : List String
  root : Element

/-- `GetReply._parsing_hook`: `self._data = None; if not self._errors:
self._data = root.find(qualify("data"))`. -/
def GetReply.parsingHook (r : GetReply) : Option Element :=
  if r.errors.isEmpty then r.root.findChild (qualifyD ("data")) else none

/-- `GetReply.data_ele`: the stored payload after the (lazy) parse. -/
def GetReply.data_ele (r : GetReply) : Option Element :=
  r.parsingHook

/-- `GetReply.data`, declared as an alias of `data_ele`. -/
def GetReply.data (r : GetReply) : Option Element :=
  r.data_ele

/-- `ET.tostring` applied to a possibly-`None` payload: serialising `None`
raises a type error in the library. -/
def ET_tostring_opt : Option Element → String → Except PyError String
  | none, _ => .error (.typeError ("cannot serialize None (not an Element)"))
  | some e, enc => .ok (ET_tostring e enc)

/-- The body of `to_xml` lifted over a possibly-`None` argument, which is how
`GetReply.data_xml` calls it. -/
def to_xml_opt (x : Option Element) (encoding : String) : Except PyError String :=
  match ET_tostring_opt x encoding with
  | .error err => .error err
  | .ok xml =>
    .ok (if strStartsWith xml ("<?xml") then xml
         else (("<?xml version=\"1.0\" encoding=\"" ++ encoding) ++ ("\"?>")) ++ xml)

/-- `GetReply.data_xml`: `return to_xml(self._data)` — unconditionally, even
when the stored payload is `None`. -/
def GetReply.data_xml (r : GetReply) : Except PyError String :=
  to_xml_opt r.parsingHook ("UTF-8")

/-! ### Well-formedness -/

/-- Well-formedness of a raw document-level name: non-empty, name characters
only (used by the attribute-scanner lemmas, where prefixed raw names are
allowed). -/
def wfName (s : String) : Bool := !s.data.isEmpty && s.data.all nameChar

/-- Well-formedness of a raw attribute list: every key is a well-formed raw
name. -/
def wfAttrList (a : List (String × String)) : Bool := a.all (fun p => wfName p.1)

/-- A plain local name: non-empty, name characters only, no colon. -/
def wfLocal (s : String) : Bool :=
  !s.data.isEmpty && s.data.all (fun c => nameChar c && c != ':')

/-- An element-level name in the canonical namespace discipline of this
layer: either `\x7buri\x7dlocal` with `uri` in the process-wide registry, or
a plain local name other than the reserved `xmlns`. -/
def wfXName (s : String) : Bool :=
  if startsWithChars s.data ('{' :: []) then
    match splitQualified s with
    | (some u, l) => (wellKnownPfx u).isSome && wfLocal l
    | (none, _) => false
  else wfLocal s && s != ("xmlns")

/-- The canonical order of an attribute mapping: keys strictly increasing
(an association-list model of a Python dict). -/
def attrsSortedStrict : List (String × String) → Bool
  | [] => true
  | [_] => true
  | p :: q :: rest => strLtB p.1 q.1 && attrsSortedStrict (q :: rest)

mutual
/-- Well-formedness of an element for the round-trip theorems: tag and
attribute keys in the canonical namespace discipline, attributes in
canonical order, recursively. -/
def wfE : Element → Bool
  | .mk t a _ ch => wfXName t && a.all (fun p => wfXName p.1) && attrsSortedStrict a && wfL ch
def wfL : List Element → Bool
  | [] => true
  | c :: cs => wfE c && wfL cs
end

mutual
/-- All element-level names (tags and attribute keys) of a tree. -/
def namesE : Element → List String
  | .mk t a _ ch => t :: (a.map (fun p => p.1) ++ namesL ch)
def namesL : List Element → List String
  | [] => []
  | c :: cs => namesE c ++ namesL cs
end

mutual
/-- Parser fuel sufficient for one element. -/
def fuelE : Element → Nat
  | .mk _ _ _ ch => fuelL ch + 1
/-- Parser fuel sufficient for a child list. -/
def fuelL : List Element → Nat
  | [] => 1
  | c :: cs => max (fuelE c) (fuelL cs) + 1
end

/-- The shape every good character-escaping function has: a character comes
out either literally (and is then not `&`), or as a full entity reference that
`decodeEnt` maps back to it. -/
def goodEsc (f : Char → List Char) : Prop :=
  ∀ c : Char, (f c = [c] ∧ c ≠ '&') ∨
    (∃ ent, f c = '&' :: (ent ++ [';']) ∧ decodeEnt ent = [c] ∧ ∀ d ∈ ent, (d != ';') = true)

/-- A written attribute key that the parser treats as a namespace
declaration. -/
def isDeclKey (k : String) : Bool :=
  k == "xmlns" || startsWithChars k.data (("xmlns:").data)

/-- A registry prefix is a usable written prefix: non-empty name characters
without a colon. -/
def pfxChars (p : String) : Bool :=
  !p.data.isEmpty && p.data.all (fun c => nameChar c && c != ':')

/-- The contract between the writing map `q` and the parsing environment `E`
for one name `s`: the written form is a scannable name, is not mistaken for a
declaration, and both element- and attribute-position expansion recover `s`. -/
def goodName (E : List (String × String)) (q : String → String) (s : String) : Prop :=
  wfName (q s) = true ∧ isDeclKey (q s) = false ∧
    resolveName E (q s) = some s ∧ resolveKey E (q s) = some s

/-- Invariant of the serialiser's collected environment: every entry pairs a
registered namespace with its registry prefix, and the reserved `xml` prefix
is never recorded. -/
def envGood (env : List (String × String)) : Prop :=
  ∀ x ∈ env, wellKnownPfx x.1 = some x.2 ∧ x.2 ≠ ("xml")

/-! ### Basic list-scanning lemmas -/

theorem startsWithChars_nil_pat (l : List Char) : startsWithChars l [] = true := by
  cases l <;> rfl

theorem startsWithChars_self_append (p r : List Char) : startsWithChars (p ++ r) p = true := by
  induction p with
  | nil => exact startsWithChars_nil_pat r
  | cons c cs ih => simp [startsWithChars, ih]

theorem startsWithChars_append_left (p : List Char) :
    ∀ a b : List Char, startsWithChars a p = true → startsWithChars (a ++ b) p = true := by
  induction p with
  | nil => intro a b _; exact startsWithChars_nil_pat _
  | cons q qs ih =>
    intro a b h
    cases a with
    | nil => simp [startsWithChars] at h
    | cons c cs =>
      simp only [startsWithChars, Bool.and_eq_true] at h
      simp only [List.cons_append, startsWithChars, Bool.and_eq_true]
      exact ⟨h.1, ih cs b h.2⟩

theorem takeWhile_append_not (p : Char → Bool) (b : Char) (hb : p b = false) :
    ∀ (a r : List Char), (∀ c ∈ a, p c = true) → (a ++ b :: r).takeWhile p = a := by
  intro a
  induction a with
  | nil => intro r _; simp [List.takeWhile_cons, hb]
  | cons c cs ih =>
    intro r ha
    have hc : p c = true := ha c (by simp)
    simp only [List.cons_append, List.takeWhile_cons, hc]
    simp [ih r (fun d hd => ha d (by simp [hd]))]

theorem dropWhile_append_not (p : Char → Bool) (b : Char) (hb : p b = false) :
    ∀ (a r : List Char), (∀ c ∈ a, p c = true) → (a ++ b :: r).dropWhile p = b :: r := by
  intro a
  induction a with
  | nil => intro r _; simp [List.dropWhile_cons, hb]
  | cons c cs ih =>
    intro r ha
    have hc : p c = true := ha c (by simp)
    simp only [List.cons_append, List.dropWhile_cons, hc]
    simp [ih r (fun d hd => ha d (by simp [hd]))]

theorem dropWhile_cons_not (p : Char → Bool) (b : Char) (hb : p b = false) (r : List Char) :
    (b :: r).dropWhile p = b :: r := by
  simp [List.dropWhile_cons, hb]

theorem nameChar_ne (c x : Char) (hc : nameChar c = true) (hx : nameChar x = false) :
    (c == x) = false := by
  by_cases h : c = x
  · subst h; rw [hc] at hx; cases hx
  · exact beq_eq_false_iff_ne.mpr h

theorem nameChar_not_space (c : Char) (hc : nameChar c = true) : isSpaceChar c = false := by
  unfold isSpaceChar
  rw [nameChar_ne c ' ' hc (by decide), nameChar_ne c '\n' hc (by decide),
    nameChar_ne c '\t' hc (by decide), nameChar_ne c '\r' hc (by decide)]
  rfl

/-! ### Escaping / un-escaping -/

theorem escCdataChar_good : goodEsc escCdataChar := by
  intro c
  by_cases h1 : c = '&'
  · subst h1; right; exact ⟨("amp").data, by decide, by decide, by decide⟩
  by_cases h2 : c = '<'
  · subst h2; right; exact ⟨("lt").data, by decide, by decide, by decide⟩
  by_cases h3 : c = '>'
  · subst h3; right; exact ⟨("gt").data, by decide, by decide, by decide⟩
  left
  exact ⟨by simp [escCdataChar, h1, h2, h3], h1⟩

theorem escAttribChar_good : goodEsc escAttribChar := by
  intro c
  by_cases h1 : c = '&'
  · subst h1; right; exact ⟨("amp").data, by decide, by decide, by decide⟩
  by_cases h2 : c = '<'
  · subst h2; right; exact ⟨("lt").data, by decide, by decide, by decide⟩
  by_cases h3 : c = '>'
  · subst h3; right; exact ⟨("gt").data, by decide, by decide, by decide⟩
  by_cases h4 : c = '"'
  · subst h4; right; exact ⟨("quot").data, by decide, by decide, by decide⟩
  left
  exact ⟨by simp [escAttribChar, h1, h2, h3, h4], h1⟩

theorem escMap_length_ge (f : Char → List Char) (hf : goodEsc f) :
    ∀ l : List Char, l.length ≤ (escMap f l).length := by
  intro l
  induction l with
  | nil => simp [escMap]
  | cons c cs ih =>
    have h1 : 1 ≤ (f c).length := by
      rcases hf c with ⟨h, _⟩ | ⟨ent, h, _, _⟩ <;> simp [h]
    simp only [escMap, List.length_append, List.length_cons]
    omega

theorem unescapeAux_escMap (f : Char → List Char) (hf : goodEsc f) :
    ∀ (l : List Char) (fuel : Nat), l.length ≤ fuel →
      unescapeAux fuel (escMap f l) = l := by
  intro l
  induction l with
  | nil =>
    intro fuel _
    cases fuel <;> simp [escMap, unescapeAux]
  | cons c cs ih =>
    intro fuel hfuel
    simp only [List.length_cons] at hfuel
    obtain ⟨fuel, rfl⟩ : ∃ m, fuel = m + 1 := ⟨fuel - 1, by omega⟩
    have hcs : cs.length ≤ fuel := by omega
    rcases hf c with ⟨hfc, hne⟩ | ⟨ent, hfc, hdec, hent⟩
    · have hform : escMap f (c :: cs) = c :: escMap f cs := by
        simp [escMap, hfc]
      rw [hform]
      simp only [unescapeAux, if_neg hne]
      rw [ih fuel hcs]
    · have hform : escMap f (c :: cs) = '&' :: (ent ++ ';' :: escMap f cs) := by
        simp [escMap, hfc]
      rw [hform]
      simp only [unescapeAux, if_pos rfl]
      rw [takeWhile_append_not _ ';' (by decide) ent _ hent,
        dropWhile_append_not _ ';' (by decide) ent _ hent]
      simp only [startsWithChars, beq_self_eq_true, startsWithChars_nil_pat, Bool.and_self,
        if_pos rfl, List.drop_one, List.tail_cons]
      rw [hdec, ih fuel hcs]
      simp

theorem unescape_escCdata (l : List Char) : unescape (escCdata l) = l := by
  unfold unescape escCdata
  exact unescapeAux_escMap escCdataChar escCdataChar_good l _
    (escMap_length_ge escCdataChar escCdataChar_good l)

theorem unescape_escAttrib (l : List Char) : unescape (escAttrib l) = l := by
  unfold unescape escAttrib
  exact unescapeAux_escMap escAttribChar escAttribChar_good l _
    (escMap_length_ge escAttribChar escAttribChar_good l)

theorem escMap_all_of_char (f : Char → List Char) (p : Char → Bool)
    (hf : ∀ a : Char, (f a).all p = true) :
    ∀ l, ∀ c ∈ escMap f l, p c = true := by
  intro l
  induction l with
  | nil => simp [escMap]
  | cons a as ih =>
    intro c hc
    simp only [escMap, List.mem_append] at hc
    rcases hc with hc | hc
    · exact List.all_eq_true.mp (hf a) c hc
    · exact ih c hc

theorem escCdataChar_no_lt (a : Char) : (escCdataChar a).all (fun c => c != '<') = true := by
  unfold escCdataChar
  by_cases h1 : a = '&'
  · subst h1; decide
  rw [if_neg h1]
  by_cases h2 : a = '<'
  · subst h2; decide
  rw [if_neg h2]
  by_cases h3 : a = '>'
  · subst h3; decide
  rw [if_neg h3]
  simp [bne_eq_false_iff_eq, h2]

theorem escAttribChar_no_quot (a : Char) : (escAttribChar a).all (fun c => c != '"') = true := by
  unfold escAttribChar
  by_cases h1 : a = '&'
  · subst h1; decide
  rw [if_neg h1]
  by_cases h2 : a = '<'
  · subst h2; decide
  rw [if_neg h2]
  by_cases h3 : a = '>'
  · subst h3; decide
  rw [if_neg h3]
  by_cases h4 : a = '"'
  · subst h4; decide
  rw [if_neg h4]
  simp [bne_eq_false_iff_eq, h4]

theorem escCdata_no_lt (l : List Char) : ∀ c ∈ escCdata l, (c != '<') = true :=
  escMap_all_of_char escCdataChar _ escCdataChar_no_lt l

theorem escAttrib_no_quot (l : List Char) : ∀ c ∈ escAttrib l, (c != '"') = true :=
  escMap_all_of_char escAttribChar _ escAttribChar_no_quot l

/-! ### The attribute scanner inverts attribute serialisation -/

theorem strMk_data (s : String) : String.mk s.data = s := rfl

theorem wfName_parts (s : String) (h : wfName s = true) :
    (∃ c cs, s.data = c :: cs) ∧ ∀ c ∈ s.data, nameChar c = true := by
  unfold wfName at h
  rw [Bool.and_eq_true] at h
  obtain ⟨h1, h2⟩ := h
  refine ⟨?_, List.all_eq_true.mp h2⟩
  cases hd : s.data with
  | nil => rw [hd] at h1; simp at h1
  | cons c cs => exact ⟨c, cs, rfl⟩

theorem parseAttrs_step (k v : String) (hk : wfName k = true) (Y : List Char) (m : Nat) :
    parseAttrs (m + 1) (' ' :: (k.data ++ '=' :: '"' :: (escAttrib v.data ++ '"' :: Y))) =
      match parseAttrs m Y with
      | some (rest, sc, r5) => some ((k, v) :: rest, sc, r5)
      | none => none := by
  obtain ⟨⟨c, cs, hkd⟩, hnc⟩ := wfName_parts k hk
  have hc : nameChar c = true := hnc c (by rw [hkd]; simp)
  have hdrop : (' ' :: (k.data ++ '=' :: '"' :: (escAttrib v.data ++ '"' :: Y))).dropWhile
      isSpaceChar = k.data ++ '=' :: '"' :: (escAttrib v.data ++ '"' :: Y) := by
    rw [List.dropWhile_cons]
    rw [if_pos (by decide)]
    rw [hkd, List.cons_append]
    exact dropWhile_cons_not _ c (nameChar_not_space c hc) _
  have hsw1 : startsWithChars (k.data ++ '=' :: '"' :: (escAttrib v.data ++ '"' :: Y))
      ('/' :: '>' :: []) = false := by
    rw [hkd, List.cons_append]
    simp [startsWithChars, nameChar_ne c '/' hc (by decide)]
  have hsw2 : startsWithChars (k.data ++ '=' :: '"' :: (escAttrib v.data ++ '"' :: Y))
      ('>' :: []) = false := by
    rw [hkd, List.cons_append]
    simp [startsWithChars, nameChar_ne c '>' hc (by decide)]
  have htake : (k.data ++ '=' :: '"' :: (escAttrib v.data ++ '"' :: Y)).takeWhile nameChar
      = k.data := takeWhile_append_not nameChar '=' (by decide) k.data _ hnc
  have hdropn : (k.data ++ '=' :: '"' :: (escAttrib v.data ++ '"' :: Y)).dropWhile nameChar
      = '=' :: '"' :: (escAttrib v.data ++ '"' :: Y) :=
    dropWhile_append_not nameChar '=' (by decide) k.data _ hnc
  have hempty : (k.data).isEmpty = false := by rw [hkd]; rfl
  have htake2 : (escAttrib v.data ++ '"' :: Y).takeWhile (fun c => c != '"')
      = escAttrib v.data :=
    takeWhile_append_not _ '"' (by decide) _ _ (escAttrib_no_quot v.data)
  have hdrop2 : (escAttrib v.data ++ '"' :: Y).dropWhile (fun c => c != '"')
      = '"' :: Y :=
    dropWhile_append_not _ '"' (by decide) _ _ (escAttrib_no_quot v.data)
  simp only [parseAttrs, hdrop, hsw1, hsw2, htake, hdropn, hempty, htake2, hdrop2,
    Bool.false_eq_true, if_false, startsWithChars, beq_self_eq_true, Bool.and_self,
    startsWithChars_nil_pat, if_true, List.drop_succ_cons, List.drop_zero, List.drop_one,
    List.tail_cons]
  rw [strMk_data, unescape_escAttrib, strMk_data]

theorem parseAttrs_base_gt (rest : List Char) (m : Nat) :
    parseAttrs (m + 1) ('>' :: rest) = some ([], false, rest) := by
  simp only [parseAttrs]
  rw [dropWhile_cons_not isSpaceChar '>' (by decide)]
  simp [startsWithChars, startsWithChars_nil_pat]

theorem parseAttrs_base_selfclose (rest : List Char) (m : Nat) :
    parseAttrs (m + 1) (' ' :: '/' :: '>' :: rest) = some ([], true, rest) := by
  simp only [parseAttrs]
  rw [show (' ' :: '/' :: '>' :: rest).dropWhile isSpaceChar = '/' :: '>' :: rest by
    rw [List.dropWhile_cons, if_pos (by decide)]
    exact dropWhile_cons_not isSpaceChar '/' (by decide) _]
  simp [startsWithChars, startsWithChars_nil_pat]

theorem parseAttrs_append (a : List (String × String)) :
    ∀ (m : Nat) (Y : List Char) (b : Bool) (rest : List Char),
      wfAttrList a = true → a.length < m →
      (∀ fuel : Nat, 0 < fuel → parseAttrs fuel Y = some ([], b, rest)) →
      parseAttrs m (attrsChars a ++ Y) = some (a, b, rest) := by
  induction a with
  | nil =>
    intro m Y b rest _ hm hY
    simpa [attrsChars] using hY m hm
  | cons kv restA ih =>
    obtain ⟨k, v⟩ := kv
    intro m Y b rest hwf hm hY
    obtain ⟨m, rfl⟩ : ∃ n, m = n + 1 := ⟨m - 1, by omega⟩
    simp only [wfAttrList, List.all_cons, Bool.and_eq_true] at hwf
    have hstep := parseAttrs_step k v hwf.1 (attrsChars restA ++ Y) m
    simp only [attrsChars, List.cons_append, List.append_assoc, List.cons_append] at hstep ⊢
    rw [hstep, ih m Y b rest hwf.2 (by simp at hm; omega) hY]

theorem parseAttrs_gt (a : List (String × String)) (m : Nat) (rest : List Char)
    (hwf : wfAttrList a = true) (hm : a.length < m) :
    parseAttrs m (attrsChars a ++ '>' :: rest) = some (a, false, rest) := by
  refine parseAttrs_append a m _ false rest hwf hm ?_
  intro fuel hf
  obtain ⟨n, rfl⟩ : ∃ n, fuel = n + 1 := ⟨fuel - 1, by omega⟩
  exact parseAttrs_base_gt rest n

theorem parseAttrs_selfclose (a : List (String × String)) (m : Nat) (rest : List Char)
    (hwf : wfAttrList a = true) (hm : a.length < m) :
    parseAttrs m (attrsChars a ++ ' ' :: '/' :: '>' :: rest) = some (a, true, rest) := by
  refine parseAttrs_append a m _ true rest hwf hm ?_
  intro fuel hf
  obtain ⟨n, rfl⟩ : ∃ n, fuel = n + 1 := ⟨fuel - 1, by omega⟩
  exact parseAttrs_base_selfclose rest n

theorem attrsChars_length_ge (a : List (String × String)) :
    a.length ≤ (attrsChars a).length := by
  induction a with
  | nil => simp [attrsChars]
  | cons kv rest ih =>
    obtain ⟨k, v⟩ := kv
    simp only [attrsChars, List.length_cons, List.length_append]
    omega

theorem fuelE_pos (e : Element) : 1 ≤ fuelE e := by
  cases e with
  | mk t a x ch => simp [fuelE]

theorem fuelL_pos (es : List Element) : 1 ≤ fuelL es := by
  cases es with
  | nil => simp [fuelL]
  | cons c cs => simp [fuelL]

/-! ### Association-list and ordering helpers -/

theorem lookup_append_some (l l2 : List (String × String)) (k : String) (v : String)
    (h : l.lookup k = some v) : (l ++ l2).lookup k = some v := by
  induction l with
  | nil => simp [List.lookup] at h
  | cons x xs ih =>
    obtain ⟨a, b⟩ := x
    simp only [List.lookup, List.cons_append] at h ⊢
    cases hk : (k == a) with
    | true => rw [hk] at h; exact h
    | false => rw [hk] at h; exact ih h

theorem lookup_append_none (l l2 : List (String × String)) (k : String)
    (h : l.lookup k = none) : (l ++ l2).lookup k = l2.lookup k := by
  induction l with
  | nil => simp
  | cons x xs ih =>
    obtain ⟨a, b⟩ := x
    simp only [List.lookup, List.cons_append] at h ⊢
    cases hk : (k == a) with
    | true => rw [hk] at h; cases h
    | false => rw [hk] at h; exact ih h

theorem lookup_mem (l : List (String × String)) (k v : String)
    (h : l.lookup k = some v) : (k, v) ∈ l := by
  induction l with
  | nil => simp [List.lookup] at h
  | cons x xs ih =>
    obtain ⟨a, b⟩ := x
    simp only [List.lookup] at h
    cases hk : (k == a) with
    | true =>
      rw [hk] at h
      cases h
      rw [beq_iff_eq] at hk
      subst hk
      exact List.mem_cons_self _ _
    | false =>
      rw [hk] at h
      exact List.mem_cons_of_mem _ (ih h)

theorem not_mem_of_lookup_none (l : List (String × String)) (k : String)
    (h : l.lookup k = none) : ∀ v, (k, v) ∉ l := by
  intro v hm
  induction l with
  | nil => simp at hm
  | cons x xs ih =>
    obtain ⟨a, b⟩ := x
    simp only [List.lookup] at h
    rcases List.mem_cons.mp hm with heq | hm2
    · cases heq
      simp at h
    · cases hk : (k == a) with
      | true => rw [hk] at h; cases h
      | false => rw [hk] at h; exact ih h hm2

theorem snd_nodup_mem_inj (l : List (String × String)) (a b c : String)
    (ha : (a, c) ∈ l) (hb : (b, c) ∈ l) (hnd : (l.map (fun x => x.2)).Nodup) : a = b := by
  induction l with
  | nil => simp at ha
  | cons x xs ih =>
    obtain ⟨k, v⟩ := x
    simp only [List.map_cons, List.nodup_cons] at hnd
    rcases List.mem_cons.mp ha with hea | ha2 <;> rcases List.mem_cons.mp hb with heb | hb2
    · cases hea; cases heb; rfl
    · cases hea
      exact absurd (List.mem_map.mpr ⟨(b, c), hb2, rfl⟩) hnd.1
    · cases heb
      exact absurd (List.mem_map.mpr ⟨(a, c), ha2, rfl⟩) hnd.1
    · exact ih ha2 hb2 hnd.2

theorem lexLt_asymm : ∀ a b : List Char, lexLt a b = true → lexLt b a = false := by
  intro a
  induction a with
  | nil =>
    intro b h
    cases b with
    | nil => simp [lexLt] at h
    | cons c cs => simp [lexLt]
  | cons x xs ih =>
    intro b h
    cases b with
    | nil => simp [lexLt] at h
    | cons y ys =>
      simp only [lexLt] at h ⊢
      by_cases h1 : x.toNat < y.toNat
      · rw [if_neg (by omega), if_pos h1]
      · rw [if_neg h1] at h
        by_cases h2 : y.toNat < x.toNat
        · rw [if_pos h2] at h; cases h
        · rw [if_neg h2] at h
          rw [if_neg (by omega), if_neg (by omega)]
          exact ih ys h

theorem strLeB_of_strLtB (a b : String) (h : strLtB a b = true) : strLeB a b = true := by
  unfold strLeB strLtB at *
  rw [lexLt_asymm _ _ h]
  rfl

theorem sortAttrs_eq_self (a : List (String × String)) (h : attrsSortedStrict a = true) :
    sortAttrs a = a := by
  induction a with
  | nil => rfl
  | cons p rest ih =>
    cases rest with
    | nil => simp [sortAttrs, List.insertionSort, List.orderedInsert]
    | cons q rest2 =>
      simp only [attrsSortedStrict, Bool.and_eq_true] at h
      have hrest : sortAttrs (q :: rest2) = q :: rest2 := ih h.2
      unfold sortAttrs at hrest ⊢
      rw [show List.insertionSort (fun x y => strLeB x.1 y.1 = true) (p :: q :: rest2)
            = List.orderedInsert (fun x y => strLeB x.1 y.1 = true) p
                (List.insertionSort (fun x y => strLeB x.1 y.1 = true) (q :: rest2)) from rfl,
          hrest]
      exact List.orderedInsert_of_le _ _ (strLeB_of_strLtB _ _ h.1)

/-! ### Raw-name splitting, declaration keys, registry facts -/

theorem declKey_empty : declKey ("") = ("xmlns") := rfl

theorem declKey_ne_empty (p : String) (hp : p ≠ ("")) :
    declKey p = (("xmlns:") ++ p) := by
  unfold declKey
  rw [if_neg (fun h => hp ((String.isEmpty_iff p).mp h))]

theorem splitDecls_cons_regular (k v : String) (rest : List (String × String))
    (hk : isDeclKey k = false) :
    splitDecls ((k, v) :: rest) = ((splitDecls rest).1, (k, v) :: (splitDecls rest).2) := by
  unfold isDeclKey at hk
  rw [Bool.or_eq_false_iff] at hk
  simp only [splitDecls]
  rw [if_neg (beq_eq_false_iff_ne.mp hk.1), if_neg (by simp [hk.2])]

theorem splitDecls_cons_default (v : String) (rest : List (String × String)) :
    splitDecls (((("xmlns") : String), v) :: rest) =
      (((("") : String), v) :: (splitDecls rest).1, (splitDecls rest).2) := by
  simp only [splitDecls]
  rw [if_pos trivial]

theorem splitDecls_cons_pfx (p v : String) (rest : List (String × String)) (hp : p ≠ ("")) :
    splitDecls ((declKey p, v) :: rest) = ((p, v) :: (splitDecls rest).1, (splitDecls rest).2) := by
  rw [declKey_ne_empty p hp]
  have hne : (("xmlns:") ++ p) ≠ ("xmlns") := by
    intro h
    have hd := congrArg String.data h
    rw [String.data_append] at hd
    have hlen := congrArg List.length hd
    have h6 : ((("xmlns:").data)).length = 6 := rfl
    have h5 : ((("xmlns").data)).length = 5 := rfl
    rw [List.length_append, h6, h5] at hlen
    omega
  have hsw : startsWithChars ((("xmlns:") ++ p).data) ((("xmlns:").data)) = true := by
    rw [String.data_append]
    exact startsWithChars_self_append _ _
  have hdrop : (((("xmlns:") ++ p).data)).drop 6 = p.data := by
    rw [String.data_append]
    have h6 : ((("xmlns:").data)).length = 6 := rfl
    rw [← h6]
    exact List.drop_left _ _
  simp only [splitDecls]
  rw [if_neg hne, if_pos hsw, hdrop, strMk_data]

theorem splitDecls_regular (ras : List (String × String))
    (h : ∀ p ∈ ras, isDeclKey p.1 = false) : splitDecls ras = ([], ras) := by
  induction ras with
  | nil => rfl
  | cons x rest ih =>
    obtain ⟨k, v⟩ := x
    have hrest := ih (fun p hp => h p (List.mem_cons_of_mem _ hp))
    rw [splitDecls_cons_regular k v rest (h (k, v) (List.mem_cons_self _ _)), hrest]

theorem splitDecls_declAttrs (ras : List (String × String))
    (hras : ∀ p ∈ ras, isDeclKey p.1 = false) :
    ∀ dex : List (String × String), (∀ x ∈ dex, x.2 = ("") ∨ pfxChars x.2 = true) →
    splitDecls (declAttrs dex ++ ras) = (swapPairs dex, ras) := by
  intro dex
  induction dex with
  | nil =>
    intro _
    simpa [declAttrs, swapPairs] using splitDecls_regular ras hras
  | cons x rest ih =>
    intro hgood
    obtain ⟨u, p⟩ := x
    have hrest := ih (fun y hy => hgood y (List.mem_cons_of_mem _ hy))
    rcases hgood (u, p) (List.mem_cons_self _ _) with hpe | hpc
    · rw [show p = ("") from hpe]
      rw [show declAttrs ((u, ("")) :: rest) ++ ras
            = (((("xmlns") : String), u)) :: (declAttrs rest ++ ras) from rfl]
      rw [splitDecls_cons_default u (declAttrs rest ++ ras), hrest]
      rfl
    · have hpc2 : pfxChars p = true := hpc
      have hpne : p ≠ ("") := by
        intro h
        rw [h] at hpc2
        exact absurd hpc2 (by decide)
      rw [show declAttrs ((u, p) :: rest) ++ ras
            = ((declKey p, u)) :: (declAttrs rest ++ ras) from rfl]
      rw [splitDecls_cons_pfx p u (declAttrs rest ++ ras) hpne, hrest]
      rfl

theorem pfxChars_parts (p : String) (h : pfxChars p = true) :
    p.data ≠ [] ∧ ∀ c ∈ p.data, nameChar c = true ∧ (c != ':') = true := by
  unfold pfxChars at h
  rw [Bool.and_eq_true] at h
  constructor
  · intro he
    rw [he] at h
    simp at h
  · intro c hc
    have := List.all_eq_true.mp h.2 c hc
    rw [Bool.and_eq_true] at this
    exact this

theorem pfxChars_ne_empty (p : String) (h : pfxChars p = true) : p ≠ ("") := by
  intro he
  rw [he] at h
  exact absurd h (by decide)

theorem wfName_of_parts (s : String) (hne : s.data ≠ []) (hall : ∀ c ∈ s.data, nameChar c = true) :
    wfName s = true := by
  unfold wfName
  rw [Bool.and_eq_true]
  refine ⟨?_, List.all_eq_true.mpr hall⟩
  cases hd : s.data with
  | nil => exact absurd hd hne
  | cons c cs => rfl

/-! ### Qualified-name splitting and the written-name maps -/

theorem splitQualified_some (s : String) (u l : String) (h : splitQualified s = (some u, l)) :
    startsWithChars s.data ('{' :: []) = true := by
  by_cases hb : startsWithChars s.data ('{' :: []) = true
  · exact hb
  · simp only [splitQualified] at h
    rw [if_neg hb] at h
    exact absurd h (by simp)

theorem wfXName_qualified (s u l : String) (hwf : wfXName s = true)
    (h : splitQualified s = (some u, l)) :
    (wellKnownPfx u).isSome = true ∧ wfLocal l = true := by
  unfold wfXName at hwf
  rw [if_pos (splitQualified_some s u l h), h] at hwf
  simpa using hwf

theorem addNs_mono (env : List (String × String)) (u u0 p0 : String)
    (h : env.lookup u0 = some p0) : (addNs env u).lookup u0 = some p0 := by
  simp only [addNs]
  cases hu : env.lookup u with
  | some p => exact h
  | none =>
    cases hw : wellKnownPfx u with
    | some p =>
      by_cases hxml : p = ("xml")
      · rw [if_pos hxml]; exact h
      · rw [if_neg hxml]; exact lookup_append_some env _ u0 p0 h
    | none =>
      by_cases hxml : (("ns") ++ Nat.repr env.length) = ("xml")
      · rw [if_pos hxml]; exact h
      · rw [if_neg hxml]; exact lookup_append_some env _ u0 p0 h

theorem collectName_mono (env : List (String × String)) (s u0 p0 : String)
    (h : env.lookup u0 = some p0) : (collectName env s).lookup u0 = some p0 := by
  unfold collectName
  cases hs : splitQualified s with
  | mk o l =>
    cases o with
    | some u => exact addNs_mono env u u0 p0 h
    | none => exact h

theorem collectAttrNames_mono : ∀ (a : List (String × String))
    (env : List (String × String)) (u0 p0 : String),
    env.lookup u0 = some p0 → (collectAttrNames env a).lookup u0 = some p0
  | [], _, _, _, h => h
  | (k, _) :: rest, env, u0, p0, h =>
    collectAttrNames_mono rest (collectName env k) u0 p0 (collectName_mono env k u0 p0 h)

mutual
theorem collectE_mono : ∀ (e : Element) (env : List (String × String)) (u0 p0 : String),
    env.lookup u0 = some p0 → (collectE env e).lookup u0 = some p0
  | .mk t a _ ch, env, u0, p0, h =>
    collectL_mono ch _ u0 p0 (collectAttrNames_mono a _ u0 p0 (collectName_mono env t u0 p0 h))
theorem collectL_mono : ∀ (es : List Element) (env : List (String × String)) (u0 p0 : String),
    env.lookup u0 = some p0 → (collectL env es).lookup u0 = some p0
  | [], _, _, _, h => h
  | c :: cs, env, u0, p0, h => collectL_mono cs _ u0 p0 (collectE_mono c env u0 p0 h)
end

theorem addNs_good (env : List (String × String)) (u : String)
    (hg : envGood env) (hk : (env.map (fun x => x.1)).Nodup)
    (hreg : (wellKnownPfx u).isSome = true) :
    envGood (addNs env u) ∧ ((addNs env u).map (fun x => x.1)).Nodup := by
  simp only [addNs]
  cases hu : env.lookup u with
  | some p => exact ⟨hg, hk⟩
  | none =>
    obtain ⟨p, hw⟩ := Option.isSome_iff_exists.mp hreg
    rw [hw]
    by_cases hxml : p = ("xml")
    · rw [if_pos hxml]; exact ⟨hg, hk⟩
    · rw [if_neg hxml]
      constructor
      · intro x hx
        rcases List.mem_append.mp hx with hx1 | hx2
        · exact hg x hx1
        · rw [List.mem_singleton.mp hx2]
          exact ⟨hw, hxml⟩
      · rw [List.map_append, List.nodup_append]
        refine ⟨hk, List.nodup_singleton _, ?_⟩
        intro b hb hb2
        rw [List.map_singleton, List.mem_singleton] at hb2
        obtain ⟨y, hy, hyu⟩ := List.mem_map.mp hb
        have hyu2 : y.1 = u := by rw [hyu, hb2]
        exact not_mem_of_lookup_none env u hu y.2 (by rw [← hyu2]; exact hy)

theorem collectName_good (env : List (String × String)) (s : String)
    (hg : envGood env) (hk : (env.map (fun x => x.1)).Nodup) (hwf : wfXName s = true) :
    envGood (collectName env s) ∧ ((collectName env s).map (fun x => x.1)).Nodup := by
  unfold collectName
  cases hsq : splitQualified s with
  | mk o l =>
    cases o with
    | none => exact ⟨hg, hk⟩
    | some u => exact addNs_good env u hg hk (wfXName_qualified s u l hwf hsq).1

theorem collectAttrNames_good : ∀ (a : List (String × String))
    (env : List (String × String)),
    envGood env → (env.map (fun x => x.1)).Nodup → (∀ p ∈ a, wfXName p.1 = true) →
    envGood (collectAttrNames env a) ∧ ((collectAttrNames env a).map (fun x => x.1)).Nodup
  | [], _, hg, hk, _ => ⟨hg, hk⟩
  | (k, v) :: rest, env, hg, hk, hwf => by
    obtain ⟨hg2, hk2⟩ := collectName_good env k hg hk (hwf (k, v) (List.mem_cons_self _ _))
    exact collectAttrNames_good rest _ hg2 hk2 (fun p hp => hwf p (List.mem_cons_of_mem _ hp))

theorem wfE_parts (t : String) (a : List (String × String)) (x : String) (ch : List Element)
    (h : wfE (.mk t a x ch) = true) :
    wfXName t = true ∧ (∀ p ∈ a, wfXName p.1 = true) ∧
      attrsSortedStrict a = true ∧ wfL ch = true := by
  simp only [wfE, Bool.and_eq_true] at h
  obtain ⟨⟨⟨h1, h2⟩, h3⟩, h4⟩ := h
  exact ⟨h1, fun p hp => List.all_eq_true.mp h2 p hp, h3, h4⟩

theorem wfL_parts (c : Element) (cs : List Element) (h : wfL (c :: cs) = true) :
    wfE c = true ∧ wfL cs = true := by
  simp only [wfL, Bool.and_eq_true] at h
  exact h

mutual
theorem collectE_good : ∀ (e : Element) (env : List (String × String)),
    envGood env → (env.map (fun x => x.1)).Nodup → wfE e = true →
    envGood (collectE env e) ∧ ((collectE env e).map (fun x => x.1)).Nodup
  | .mk t a x ch, env, hg, hk, hwf => by
    obtain ⟨h1, h2, _, h4⟩ := wfE_parts t a x ch hwf
    obtain ⟨hg1, hk1⟩ := collectName_good env t hg hk h1
    obtain ⟨hg2, hk2⟩ := collectAttrNames_good a _ hg1 hk1 h2
    exact collectL_good ch _ hg2 hk2 h4
theorem collectL_good : ∀ (es : List Element) (env : List (String × String)),
    envGood env → (env.map (fun x => x.1)).Nodup → wfL es = true →
    envGood (collectL env es) ∧ ((collectL env es).map (fun x => x.1)).Nodup
  | [], _, hg, hk, _ => ⟨hg, hk⟩
  | c :: cs, env, hg, hk, hwf => by
    obtain ⟨hc, hcs⟩ := wfL_parts c cs hwf
    obtain ⟨hg1, hk1⟩ := collectE_good c env hg hk hc
    exact collectL_good cs _ hg1 hk1 hcs
end

theorem addNs_covers (env : List (String × String)) (u : String)
    (hreg : (wellKnownPfx u).isSome = true) (hxml : u ≠ XML_NAMESPACE) :
    ((addNs env u).lookup u).isSome = true := by
  simp only [addNs]
  cases hu : env.lookup u with
  | some p =>
    show (env.lookup u).isSome = true
    rw [hu]; rfl
  | none =>
    obtain ⟨p, hw⟩ := Option.isSome_iff_exists.mp hreg
    rw [hw]
    have hp : p ≠ ("xml") := by
      intro he
      rw [he] at hw
      have hm := lookup_mem namespace_map u ("xml") hw
      have hxm : ((XML_NAMESPACE, (("xml") : String)) ∈ namespace_map) := by decide
      have hsnd : (namespace_map.map (fun x => x.2)).Nodup := by decide
      exact hxml (snd_nodup_mem_inj namespace_map u XML_NAMESPACE ("xml") hm hxm hsnd)
    rw [if_neg hp, lookup_append_none env _ u hu]
    simp [List.lookup]

theorem collectName_covers_self (env : List (String × String)) (s : String)
    (hwf : wfXName s = true) :
    ∀ u l, splitQualified s = (some u, l) → u ≠ XML_NAMESPACE →
      ((collectName env s).lookup u).isSome = true := by
  intro u l hsq hxml
  unfold collectName
  rw [hsq]
  exact addNs_covers env u (wfXName_qualified s u l hwf hsq).1 hxml

theorem collectAttrNames_covers : ∀ (a : List (String × String))
    (env : List (String × String)), (∀ p ∈ a, wfXName p.1 = true) →
    ∀ s ∈ a.map (fun p => p.1), ∀ u l, splitQualified s = (some u, l) → u ≠ XML_NAMESPACE →
      ((collectAttrNames env a).lookup u).isSome = true := by
  intro a
  induction a with
  | nil => intro env _ s hs; simp at hs
  | cons kv rest ih =>
    obtain ⟨k, v⟩ := kv
    intro env hwf s hs u l hsq hxml
    simp only [List.map_cons, List.mem_cons] at hs
    rcases hs with rfl | hs2
    · have h0 := collectName_covers_self env s (hwf (s, v) (List.mem_cons_self _ _)) u l hsq hxml
      obtain ⟨q, hq⟩ := Option.isSome_iff_exists.mp h0
      have h5 := collectAttrNames_mono rest (collectName env s) u q hq
      show ((collectAttrNames (collectName env s) rest).lookup u).isSome = true
      rw [h5]; rfl
    · exact ih (collectName env k) (fun p hp => hwf p (List.mem_cons_of_mem _ hp)) s hs2 u l hsq hxml

mutual
theorem collectE_covers : ∀ (e : Element) (env : List (String × String)),
    wfE e = true →
    ∀ s ∈ namesE e, ∀ u l, splitQualified s = (some u, l) → u ≠ XML_NAMESPACE →
      ((collectE env e).lookup u).isSome = true
  | .mk t a x ch, env, hwf, s, hs, u, l, hsq, hxml => by
    obtain ⟨h1, h2, _, h4⟩ := wfE_parts t a x ch hwf
    simp only [namesE, List.mem_cons, List.mem_append] at hs
    show ((collectL (collectAttrNames (collectName env t) a) ch).lookup u).isSome = true
    rcases hs with rfl | hs2 | hs3
    · have h0 := collectName_covers_self env s h1 u l hsq hxml
      obtain ⟨p, hp⟩ := Option.isSome_iff_exists.mp h0
      rw [collectL_mono ch _ u p (collectAttrNames_mono a _ u p hp)]; rfl
    · have h0 := collectAttrNames_covers a (collectName env t) h2 s hs2 u l hsq hxml
      obtain ⟨p, hp⟩ := Option.isSome_iff_exists.mp h0
      rw [collectL_mono ch _ u p hp]; rfl
    · exact collectL_covers ch _ h4 s hs3 u l hsq hxml
theorem collectL_covers : ∀ (es : List Element) (env : List (String × String)),
    wfL es = true →
    ∀ s ∈ namesL es, ∀ u l, splitQualified s = (some u, l) → u ≠ XML_NAMESPACE →
      ((collectL env es).lookup u).isSome = true
  | [], _, _, s, hs, _, _, _, _ => by simp [namesL] at hs
  | c :: cs, env, hwf, s, hs, u, l, hsq, hxml => by
    obtain ⟨hc, hcs⟩ := wfL_parts c cs hwf
    simp only [namesL, List.mem_append] at hs
    show ((collectL (collectE env c) cs).lookup u).isSome = true
    rcases hs with hs1 | hs2
    · have h0 := collectE_covers c env hc s hs1 u l hsq hxml
      obtain ⟨p, hp⟩ := Option.isSome_iff_exists.mp h0
      rw [collectL_mono cs _ u p hp]; rfl
    · exact collectL_covers cs _ hcs s hs2 u l hsq hxml
end

/-! ### Agreement between the written environment and the parser environment -/

mutual
theorem namesE_wfXName : ∀ (e : Element), wfE e = true → ∀ s ∈ namesE e, wfXName s = true
  | .mk t a x ch, hwf, s, hs => by
    obtain ⟨h1, h2, _, h4⟩ := wfE_parts t a x ch hwf
    simp only [namesE, List.mem_cons, List.mem_append] at hs
    rcases hs with rfl | hs2 | hs3
    · exact h1
    · obtain ⟨p, hp, hps⟩ := List.mem_map.mp hs2
      rw [← hps]
      exact h2 p hp
    · exact namesL_wfXName ch h4 s hs3
theorem namesL_wfXName : ∀ (es : List Element), wfL es = true → ∀ s ∈ namesL es, wfXName s = true
  | [], _, s, hs => by simp [namesL] at hs
  | c :: cs, hwf, s, hs => by
    obtain ⟨hc, hcs⟩ := wfL_parts c cs hwf
    simp only [namesL, List.mem_append] at hs
    rcases hs with hs1 | hs2
    · exact namesE_wfXName c hc s hs1
    · exact namesL_wfXName cs hcs s hs2
end

theorem resolveAttrs_qKeys (E : List (String × String)) (q : String → String) :
    ∀ (a : List (String × String)), (∀ p ∈ a, goodName E q p.1) →
    resolveAttrs E (qKeys q a) = some a := by
  intro a
  induction a with
  | nil => intro _; rfl
  | cons kv rest ih =>
    obtain ⟨k, v⟩ := kv
    intro h
    have hk := (h (k, v) (List.mem_cons_self _ _)).2.2.2
    have hrest := ih (fun p hp => h p (List.mem_cons_of_mem _ hp))
    show resolveAttrs E ((q k, v) :: qKeys q rest) = some ((k, v) :: rest)
    simp [resolveAttrs, hk, hrest]

/-! ### Structure of the serialised form -/

theorem attrsChars_append_head (A : List (String × String)) (c0 : Char) (X : List Char)
    (hc0 : nameChar c0 = false) :
    ∃ d r, attrsChars A ++ c0 :: X = d :: r ∧ nameChar d = false := by
  cases A with
  | nil => exact ⟨c0, X, rfl, hc0⟩
  | cons kv rest =>
    obtain ⟨k, v⟩ := kv
    exact ⟨' ', (k.data ++ '=' :: '"' :: (escAttrib v.data ++ '"' :: attrsChars rest)) ++ c0 :: X,
      rfl, by decide⟩

theorem serEQD_head (q : String → String) (dex : List (String × String)) (e : Element) :
    ∃ r, serEQD q dex e = '<' :: r := by
  cases e with
  | mk t a x ch => exact ⟨_, rfl⟩

theorem serLQ_append_lt (q : String → String) (es : List Element) (Z : List Char) :
    ∃ W, serLQ q es ++ '<' :: Z = '<' :: W := by
  cases es with
  | nil => exact ⟨Z, rfl⟩
  | cons c cs =>
    obtain ⟨r, hr⟩ := serEQD_head q ([]) c
    refine ⟨r ++ (serLQ q cs ++ '<' :: Z), ?_⟩
    rw [show serLQ q (c :: cs) = serEQD q ([]) c ++ serLQ q cs from rfl, hr]
    simp [List.append_assoc]

theorem serEQD_two_head (q : String → String) (dex : List (String × String))
    (t : String) (a : List (String × String)) (x : String) (ch : List Element)
    (c0 : Char) (cs0 : List Char) (hqt : (q t).data = c0 :: cs0) :
    ∃ W, serEQD q dex (.mk t a x ch) = '<' :: c0 :: W := by
  refine ⟨cs0 ++ attrsChars (declAttrs dex ++ qKeys q (sortAttrs a)) ++
    (if x.data.isEmpty && ch.isEmpty then ' ' :: '/' :: '>' :: []
     else '>' :: (escCdata x.data ++ serLQ q ch ++ '<' :: '/' :: ((q t).data ++ '>' :: []))), ?_⟩
  simp only [serEQD, hqt]
  rfl

theorem declKey_wfName (p : String) (h : p = ("") ∨ pfxChars p = true) :
    wfName (declKey p) = true := by
  rcases h with rfl | hpc
  · decide
  · rw [declKey_ne_empty p (pfxChars_ne_empty p hpc)]
    apply wfName_of_parts
    · rw [String.data_append]
      intro he
      have hx : ('x' : Char) ∈ ((("xmlns:").data)) ++ p.data :=
        List.mem_append.mpr (Or.inl (by decide))
      rw [he] at hx
      simp at hx
    · intro c hc
      rw [String.data_append] at hc
      rcases List.mem_append.mp hc with hc1 | hc2
      · have hall : ∀ c ∈ ((("xmlns:").data)), nameChar c = true := by decide
        exact hall c hc1
      · exact ((pfxChars_parts p hpc).2 c hc2).1

/-! ### The parser inverts the serialiser on well-formed trees -/

mutual
theorem parse_serE : ∀ (e : Element) (q : String → String)
    (dex E : List (String × String)) (fuel : Nat) (Y : List Char),
    fuelE e ≤ fuel →
    (∀ s ∈ namesE e, goodName (swapPairs dex ++ E) q s) →
    (∀ x ∈ dex, x.2 = ("") ∨ pfxChars x.2 = true) →
    wfE e = true →
    parseE fuel E (serEQD q dex e ++ Y) = some (e, Y)
  | .mk t a x ch, q, dex, E, fuel, Y, hfuel, hnames, hdex, hwf => by
    obtain ⟨h1, _, h3, h4⟩ := wfE_parts t a x ch hwf
    simp only [fuelE] at hfuel
    obtain ⟨n, rfl⟩ : ∃ n, fuel = n + 1 := ⟨fuel - 1, by omega⟩
    have hgt : goodName (swapPairs dex ++ E) q t :=
      hnames t (by simp [namesE])
    obtain ⟨⟨dt, dts, hqt⟩, hqtall⟩ := wfName_parts (q t) hgt.1
    have hsort : sortAttrs a = a := sortAttrs_eq_self a h3
    have hRAwf : wfAttrList (declAttrs dex ++ qKeys q a) = true := by
      unfold wfAttrList
      rw [List.all_eq_true]
      intro p hp
      show wfName p.1 = true
      rcases List.mem_append.mp hp with hp1 | hp2
      · obtain ⟨y, hy, hyp⟩ := List.mem_map.mp hp1
        rw [← hyp]
        exact declKey_wfName y.2 (hdex y hy)
      · obtain ⟨z, hz, hzp⟩ := List.mem_map.mp hp2
        rw [← hzp]
        exact (hnames z.1 (by
          simp only [namesE, List.mem_cons, List.mem_append]
          exact Or.inr (Or.inl (List.mem_map.mpr ⟨z, hz, rfl⟩)))).1
    have hqdecl : ∀ p ∈ qKeys q a, isDeclKey p.1 = false := by
      intro p hp
      obtain ⟨z, hz, hzp⟩ := List.mem_map.mp hp
      rw [← hzp]
      show isDeclKey (q z.1) = false
      exact (hnames z.1 (by
        simp only [namesE, List.mem_cons, List.mem_append]
        exact Or.inr (Or.inl (List.mem_map.mpr ⟨z, hz, rfl⟩)))).2.1
    have hsd : splitDecls (declAttrs dex ++ qKeys q a) = (swapPairs dex, qKeys q a) :=
      splitDecls_declAttrs (qKeys q a) hqdecl dex hdex
    have hres1 : resolveName (swapPairs dex ++ E) (String.mk (((q t).data))) = some t := by
      rw [strMk_data]
      exact hgt.2.2.1
    have hresA : resolveAttrs (swapPairs dex ++ E) (qKeys q a) = some a :=
      resolveAttrs_qKeys _ q a (fun p hp => hnames p.1 (by
        simp only [namesE, List.mem_cons, List.mem_append]
        exact Or.inr (Or.inl (List.mem_map.mpr ⟨p, hp, rfl⟩))))
    have hAne : ((((q t).data))).isEmpty = false := by rw [hqt]; rfl
    cases hcond : (x.data.isEmpty && ch.isEmpty) with
    | true =>
      rw [Bool.and_eq_true] at hcond
      have hxd : x.data = [] := by
        cases hb2 : x.data with
        | nil => rfl
        | cons c cs => rw [hb2] at hcond; simp at hcond
      have hchn : ch = [] := by
        cases hb3 : ch with
        | nil => rfl
        | cons c cs => rw [hb3] at hcond; simp at hcond
      have hx : x = ("") := String.ext (by rw [hxd])
      subst hx
      subst hchn
      have hser : serEQD q dex (.mk t a ("") ([])) ++ Y =
          '<' :: ((((q t).data)) ++ (attrsChars (declAttrs dex ++ qKeys q a) ++
            (' ' :: '/' :: '>' :: Y))) := by
        rw [show serEQD q dex (.mk t a ("") ([])) =
          '<' :: ((((q t).data)) ++ attrsChars (declAttrs dex ++ qKeys q (sortAttrs a)) ++
            (' ' :: '/' :: '>' :: [])) from rfl, hsort]
        simp [List.append_assoc]
      rw [hser]
      obtain ⟨d, r, hdr, hdn⟩ := attrsChars_append_head (declAttrs dex ++ qKeys q a) ' '
        ('/' :: '>' :: Y) (by decide)
      have htakeN : ((((q t).data)) ++ (attrsChars (declAttrs dex ++ qKeys q a) ++
          (' ' :: '/' :: '>' :: Y))).takeWhile nameChar = (((q t).data)) := by
        rw [hdr]
        exact takeWhile_append_not nameChar d hdn _ r hqtall
      have hdropN : ((((q t).data)) ++ (attrsChars (declAttrs dex ++ qKeys q a) ++
          (' ' :: '/' :: '>' :: Y))).dropWhile nameChar =
          attrsChars (declAttrs dex ++ qKeys q a) ++ (' ' :: '/' :: '>' :: Y) := by
        rw [hdr]
        exact dropWhile_append_not nameChar d hdn _ r hqtall
      have hpa : parseAttrs ((attrsChars (declAttrs dex ++ qKeys q a) ++
          (' ' :: '/' :: '>' :: Y)).length + 1)
          (attrsChars (declAttrs dex ++ qKeys q a) ++ ' ' :: '/' :: '>' :: Y) =
          some ((declAttrs dex ++ qKeys q a, true, Y)) := by
        apply parseAttrs_selfclose _ _ _ hRAwf
        have := attrsChars_length_ge (declAttrs dex ++ qKeys q a)
        simp only [List.length_append] at this ⊢
        omega
      simp only [parseE, List.drop_succ_cons, List.drop_zero, List.drop_one, List.tail_cons,
        startsWithChars, beq_self_eq_true, Bool.and_self, startsWithChars_nil_pat, if_true,
        htakeN, hdropN, hAne, Bool.false_eq_true, if_false, hpa, hsd, hres1, hresA]
    | false =>
      have hser : serEQD q dex (.mk t a x ch) ++ Y =
          '<' :: ((((q t).data)) ++ (attrsChars (declAttrs dex ++ qKeys q a) ++
            ('>' :: (escCdata x.data ++ (serLQ q ch ++
              ('<' :: '/' :: ((((q t).data)) ++ '>' :: Y))))))) := by
        simp only [serEQD, hcond, Bool.false_eq_true, if_false, hsort]
        simp [List.append_assoc]
      rw [hser]
      obtain ⟨d, r, hdr, hdn⟩ := attrsChars_append_head (declAttrs dex ++ qKeys q a) '>'
        (escCdata x.data ++ (serLQ q ch ++ ('<' :: '/' :: ((((q t).data)) ++ '>' :: Y))))
        (by decide)
      have htakeN : ((((q t).data)) ++ (attrsChars (declAttrs dex ++ qKeys q a) ++
          ('>' :: (escCdata x.data ++ (serLQ q ch ++
            ('<' :: '/' :: ((((q t).data)) ++ '>' :: Y))))))).takeWhile nameChar =
          (((q t).data)) := by
        rw [hdr]
        exact takeWhile_append_not nameChar d hdn _ r hqtall
      have hdropN : ((((q t).data)) ++ (attrsChars (declAttrs dex ++ qKeys q a) ++
          ('>' :: (escCdata x.data ++ (serLQ q ch ++
            ('<' :: '/' :: ((((q t).data)) ++ '>' :: Y))))))).dropWhile nameChar =
          attrsChars (declAttrs dex ++ qKeys q a) ++
            ('>' :: (escCdata x.data ++ (serLQ q ch ++
              ('<' :: '/' :: ((((q t).data)) ++ '>' :: Y))))) := by
        rw [hdr]
        exact dropWhile_append_not nameChar d hdn _ r hqtall
      have hpa : parseAttrs ((attrsChars (declAttrs dex ++ qKeys q a) ++
          ('>' :: (escCdata x.data ++ (serLQ q ch ++
            ('<' :: '/' :: ((((q t).data)) ++ '>' :: Y)))))).length + 1)
          (attrsChars (declAttrs dex ++ qKeys q a) ++
            '>' :: (escCdata x.data ++ (serLQ q ch ++
              ('<' :: '/' :: ((((q t).data)) ++ '>' :: Y))))) =
          some ((declAttrs dex ++ qKeys q a, false,
            escCdata x.data ++ (serLQ q ch ++
              ('<' :: '/' :: ((((q t).data)) ++ '>' :: Y))))) := by
        apply parseAttrs_gt _ _ _ hRAwf
        have := attrsChars_length_ge (declAttrs dex ++ qKeys q a)
        simp only [List.length_append] at this ⊢
        omega
      obtain ⟨W, hW⟩ := serLQ_append_lt q ch ('/' :: ((((q t).data)) ++ '>' :: Y))
      have htakeT : (escCdata x.data ++ (serLQ q ch ++
          ('<' :: '/' :: ((((q t).data)) ++ '>' :: Y)))).takeWhile (fun c => c != '<') =
          escCdata x.data := by
        rw [hW]
        exact takeWhile_append_not _ '<' (by decide) _ W (escCdata_no_lt x.data)
      have hdropT : (escCdata x.data ++ (serLQ q ch ++
          ('<' :: '/' :: ((((q t).data)) ++ '>' :: Y)))).dropWhile (fun c => c != '<') =
          serLQ q ch ++ ('<' :: '/' :: ((((q t).data)) ++ '>' :: Y)) := by
        rw [hW]
        exact dropWhile_append_not _ '<' (by decide) _ W (escCdata_no_lt x.data)
      have hfC : fuelL ch ≤ n := by omega
      have hC := parse_serC ch q (swapPairs dex ++ E) n ((((q t).data)) ++ '>' :: Y) hfC
        (fun s hs => hnames s (by
          simp only [namesE, List.mem_cons, List.mem_append]
          exact Or.inr (Or.inr hs))) h4
      have htakeC : ((((q t).data)) ++ '>' :: Y).takeWhile nameChar = (((q t).data)) :=
        takeWhile_append_not nameChar '>' (by decide) _ Y hqtall
      have hdropC : ((((q t).data)) ++ '>' :: Y).dropWhile nameChar = '>' :: Y :=
        dropWhile_append_not nameChar '>' (by decide) _ Y hqtall
      have hdropS : ('>' :: Y).dropWhile isSpaceChar = '>' :: Y :=
        dropWhile_cons_not isSpaceChar '>' (by decide) Y
      have htext : String.mk (unescape (escCdata x.data)) = x := by
        rw [unescape_escCdata]
      simp only [parseE, List.drop_succ_cons, List.drop_zero, List.drop_one, List.tail_cons,
        startsWithChars, beq_self_eq_true, Bool.and_self, Bool.true_and, startsWithChars_nil_pat,
        if_true, htakeN, hdropN, hAne, Bool.false_eq_true, if_false, hpa, hsd, hres1, hresA,
        htakeT, hdropT, hC, htakeC, hdropC, hdropS, htext, eq_self_iff_true]
theorem parse_serC : ∀ (es : List Element) (q : String → String)
    (E : List (String × String)) (fuel : Nat) (Z : List Char),
    fuelL es ≤ fuel →
    (∀ s ∈ namesL es, goodName E q s) →
    wfL es = true →
    parseC fuel E (serLQ q es ++ '<' :: '/' :: Z) = some (es, '<' :: '/' :: Z)
  | [], q, E, fuel, Z, hfuel, _, _ => by
    simp only [fuelL] at hfuel
    obtain ⟨n, rfl⟩ : ∃ n, fuel = n + 1 := ⟨fuel - 1, by omega⟩
    show parseC (n + 1) E ('<' :: '/' :: Z) = some ([], '<' :: '/' :: Z)
    simp [parseC, startsWithChars, startsWithChars_nil_pat]
  | c :: cs, q, E, fuel, Z, hfuel, hnames, hwf => by
    obtain ⟨hc, hcs⟩ := wfL_parts c cs hwf
    simp only [fuelL] at hfuel
    obtain ⟨n, rfl⟩ : ∃ n, fuel = n + 1 := ⟨fuel - 1, by omega⟩
    have hfE : fuelE c ≤ n := by
      have := Nat.le_max_left (fuelE c) (fuelL cs)
      omega
    have hfL2 : fuelL cs ≤ n := by
      have := Nat.le_max_right (fuelE c) (fuelL cs)
      omega
    have hE1 := parse_serE c q ([]) E n (serLQ q cs ++ '<' :: '/' :: Z) hfE
      (fun s hs => hnames s (by
        simp only [namesL, List.mem_append]
        exact Or.inl hs))
      (fun y hy => absurd hy (by simp)) hc
    have hC2 := parse_serC cs q E n Z hfL2
      (fun s hs => hnames s (by
        simp only [namesL, List.mem_append]
        exact Or.inr hs)) hcs
    obtain ⟨W3, hW3⟩ := serLQ_append_lt q cs ('/' :: Z)
    have hdrop2 : (serLQ q cs ++ '<' :: '/' :: Z).dropWhile (fun c => c != '<') =
        serLQ q cs ++ '<' :: '/' :: Z := by
      rw [hW3]
      exact dropWhile_cons_not _ '<' (by decide) W3
    cases c with
    | mk tc ac xc chc =>
      have hgtc : goodName E q tc := hnames tc (by simp [namesL, namesE])
      obtain ⟨⟨dc, dcs, hqtc⟩, hqtcall⟩ := wfName_parts (q tc) hgtc.1
      have hdc : nameChar dc = true := hqtcall dc (by rw [hqtc]; exact List.mem_cons_self _ _)
      obtain ⟨W2, hW2⟩ := serEQD_two_head q ([]) tc ac xc chc dc dcs hqtc
      have hform : serLQ q ((.mk tc ac xc chc) :: cs) ++ '<' :: '/' :: Z =
          '<' :: dc :: (W2 ++ (serLQ q cs ++ '<' :: '/' :: Z)) := by
        rw [show serLQ q ((.mk tc ac xc chc) :: cs)
              = serEQD q ([]) (.mk tc ac xc chc) ++ serLQ q cs from rfl, hW2]
        simp [List.append_assoc]
      have hE1b : parseE n E ('<' :: dc :: (W2 ++ (serLQ q cs ++ '<' :: '/' :: Z))) =
          some (.mk tc ac xc chc, serLQ q cs ++ '<' :: '/' :: Z) := by
        rw [show ('<' :: dc :: (W2 ++ (serLQ q cs ++ '<' :: '/' :: Z)))
              = serEQD q ([]) (.mk tc ac xc chc) ++ (serLQ q cs ++ '<' :: '/' :: Z) by
            rw [hW2]; simp [List.append_assoc]]
        exact hE1
      rw [hform]
      simp only [parseC, Bool.false_eq_true, if_false, startsWithChars,
        beq_self_eq_true, Bool.and_self, Bool.true_and, startsWithChars_nil_pat, if_true,
        hE1b, hdrop2, hC2]
      rw [nameChar_ne dc '/' hdc (by decide)]
      simp
end

/-! ### Whole-document assembly -/

mutual
theorem serEQD_fuel : ∀ (e : Element) (q : String → String) (dex : List (String × String)),
    fuelE e ≤ (serEQD q dex e).length
  | .mk t a x ch, q, dex => by
    have hB := serLQ_fuel ch q
    simp only [fuelE, serEQD]
    by_cases hcond : (x.data.isEmpty && ch.isEmpty) = true
    · rw [if_pos hcond]
      rw [Bool.and_eq_true] at hcond
      have hch : ch = [] := by
        cases hb : ch with
        | nil => rfl
        | cons c cs => rw [hb] at hcond; simp at hcond
      subst hch
      simp only [fuelL, List.length_cons, List.length_append, List.length_nil]
      omega
    · rw [if_neg hcond]
      simp only [List.length_cons, List.length_append, List.length_nil] at hB ⊢
      omega
theorem serLQ_fuel : ∀ (es : List Element) (q : String → String),
    fuelL es ≤ (serLQ q es).length + 1
  | [], q => by simp [fuelL, serLQ]
  | c :: cs, q => by
    have hA := serEQD_fuel c q ([])
    have hB := serLQ_fuel cs q
    have hpos : 1 ≤ (serEQD q ([]) c).length := by
      obtain ⟨r, hr⟩ := serEQD_head q ([]) c
      rw [hr]
      simp
    simp only [fuelL, serLQ, List.length_append]
    omega
end

theorem validated_element_eq (x : XmlInput) (ele : Element) (tags : Option StrOrSeq)
    (attrs : Option (List StrOrSeq)) (h : to_ele x = Except.ok ele) :
    validated_element x tags attrs =
      match (if truthyOpt tags then checkTags ele (strOrSeqList (tags.getD (.seq [])))
             else .ok ()) with
      | .error err => .error err
      | .ok _ =>
        match (if truthyOptList attrs then checkAttrs ele (attrs.getD []) else .ok ()) with
        | .error err => .error err
        | .ok _ => .ok ele := by
  unfold validated_element
  rw [h]

theorem reqSatisfied_iff (ele : Element) (req : StrOrSeq) :
    reqSatisfied ele req = true ↔
      ∃ alt ∈ strOrSeqList req, ∃ v, (alt, v) ∈ ele.attrib := by
  unfold reqSatisfied
  rw [List.any_eq_true]
  constructor
  · rintro ⟨alt, ha, hany⟩
    rw [List.any_eq_true] at hany
    obtain ⟨⟨k, v⟩, hm, hk⟩ := hany
    rw [beq_iff_eq] at hk
    exact ⟨alt, ha, v, by rw [← hk]; exact hm⟩
  · rintro ⟨alt, ha, v, hm⟩
    refine ⟨alt, ha, ?_⟩
    rw [List.any_eq_true]
    exact ⟨(alt, v), hm, by rw [beq_iff_eq]⟩

theorem checkAttrs_ok_iff (ele : Element) (reqs : List StrOrSeq) :
    checkAttrs ele reqs = .ok () ↔ ∀ req ∈ reqs, reqSatisfied ele req = true := by
  induction reqs with
  | nil => simp [checkAttrs]
  | cons req rest ih =>
    by_cases h : reqSatisfied ele req = true
    · simp only [checkAttrs, if_pos h, ih]
      constructor
      · intro hall q hq
        rcases List.mem_cons.mp hq with rfl | hq2
        · exact h
        · exact hall q hq2
      · intro hall q hq
        exact hall q (List.mem_cons_of_mem _ hq)
    · simp only [checkAttrs, if_neg h]
      constructor
      · intro hc
        exact absurd hc (by simp)
      · intro hall
        exact absurd (hall req (List.mem_cons_self _ _)) h

theorem checkAttrs_err (ele : Element) (reqs : List StrOrSeq)
    (h : ¬ ∀ req ∈ reqs, reqSatisfied ele req = true) :
    checkAttrs ele reqs = .error (.xmlError
      (("Element [" ++ ele.tag) ++ ("] does not have required attributes"))) := by
  induction reqs with
  | nil => exact absurd (by simp) h
  | cons req rest ih =>
    by_cases hr : reqSatisfied ele req = true
    · have h2 : ¬ ∀ q ∈ rest, reqSatisfied ele q = true := by
        intro hall
        refine h ?_
        intro q hq
        rcases List.mem_cons.mp hq with rfl | hq2
        · exact hr
        · exact hall q hq2
      simp only [checkAttrs, if_pos hr]
      exact ih h2
    · simp only [checkAttrs, if_neg hr]

/-! ### Claim theorems -/

/-- C1: for every input `x` (coercing to root element `ele`) and every given
`attrs` requirement list, `validated_element x none (some reqs)` succeeds —
returning the coerced root — if and only if every requirement group has at
least one alternative name present among the attributes of the root (AND over the
groups, OR inside a group); and when some group has no alternative present it
raises the structural `XMLError`. -/
theorem claim_C1_validated_element_attr_groups (x : XmlInput) (ele : Element)
    (h : to_ele x = Except.ok ele) (reqs : List StrOrSeq) :
    (validated_element x none (some reqs) = Except.ok ele ↔
      ∀ req ∈ reqs, ∃ alt ∈ strOrSeqList req, ∃ v, (alt, v) ∈ ele.attrib) ∧
    ((¬ ∀ req ∈ reqs, ∃ alt ∈ strOrSeqList req, ∃ v, (alt, v) ∈ ele.attrib) →
      validated_element x none (some reqs) = Except.error (PyError.xmlError
        (("Element [" ++ ele.tag) ++ ("] does not have required attributes")))) := by
  rw [validated_element_eq x ele none (some reqs) h]
  simp only [truthyOpt, Bool.false_eq_true, if_false]
  cases reqs with
  | nil =>
    simp only [truthyOptList, List.isEmpty_nil, Bool.not_true, Bool.false_eq_true, if_false]
    constructor
    · simp
    · intro hne
      exact absurd (by simp) hne
  | cons req rest =>
    simp only [truthyOptList, List.isEmpty_cons, Bool.not_false, if_true, Option.getD_some]
    have hiff : (∀ q ∈ req :: rest, reqSatisfied ele q = true) ↔
        (∀ q ∈ req :: rest, ∃ alt ∈ strOrSeqList q, ∃ v, (alt, v) ∈ ele.attrib) := by
      constructor
      · intro hall q hq
        exact (reqSatisfied_iff ele q).mp (hall q hq)
      · intro hall q hq
        exact (reqSatisfied_iff ele q).mpr (hall q hq)
    by_cases hP : ∀ q ∈ req :: rest, reqSatisfied ele q = true
    · rw [(checkAttrs_ok_iff ele (req :: rest)).mpr hP]
      exact ⟨iff_of_true rfl (hiff.mp hP), fun hne => absurd (hiff.mp hP) hne⟩
    · rw [checkAttrs_err ele (req :: rest) hP]
      exact ⟨iff_of_false (by simp) (fun hall => hP (hiff.mpr hall)), fun _ => rfl⟩

/-- C2: for every input `x` coercing to root `ele` and every non-empty
`tags` argument (single tag or sequence of alternatives), `validated_element`
raises the structural `XMLError` when the qualified tag of the root is not among
the acceptable tags, and returns the coerced root element itself when it is
(provided the optional attribute check also passes). -/
theorem claim_C2_validated_element_tag_check (x : XmlInput) (ele : Element)
    (h : to_ele x = Except.ok ele) (t : StrOrSeq) (ht : truthyOpt (some t) = true)
    (attrs : Option (List StrOrSeq))
    (hA : truthyOptList attrs = true → checkAttrs ele (attrs.getD []) = Except.ok ()) :
    (ele.tag ∉ strOrSeqList t →
      validated_element x (some t) attrs = Except.error (PyError.xmlError
        (("Element [" ++ ele.tag) ++ ("] does not meet requirement")))) ∧
    (ele.tag ∈ strOrSeqList t → validated_element x (some t) attrs = Except.ok ele) := by
  rw [validated_element_eq x ele (some t) attrs h]
  rw [if_pos ht]
  constructor
  · intro hmem
    have hc : (strOrSeqList t).contains ele.tag = false := by
      cases hck : (strOrSeqList t).contains ele.tag with
      | false => rfl
      | true => exact absurd (List.elem_iff.mp hck) hmem
    simp only [Option.getD_some, checkTags, hc, Bool.false_eq_true, if_false]
  · intro hmem
    have hc : (strOrSeqList t).contains ele.tag = true := List.elem_iff.mpr hmem
    simp only [Option.getD_some, checkTags, hc, if_true]
    cases hta : truthyOptList attrs with
    | false => simp only [Bool.false_eq_true, if_false]
    | true =>
      rw [if_pos rfl, hA hta]

/-- C4 counterexample: on the unparsable text `"<"`, `to_ele` raises the
error of the underlying parser, which is not the structural `XMLError` kind that
`validated_element` raises — refuting the claim that coercion failures raise
the same single structural error kind of this layer. -/
theorem claim_C4_counterexample :
    to_ele (.text ("<")) = Except.error (PyError.parseError ("syntax error")) ∧
    PyError.isXMLError (PyError.parseError ("syntax error")) = false :=
  ⟨rfl, rfl⟩

/-- C4 (amended): for every text input that does not parse as well-formed
XML, `to_ele` raises the underlying `xml.etree` parse error — not the
structural `XMLError` raised by `validated_element`, and carrying no element
tag (there is no element to name). -/
theorem claim_C4_to_ele_parse_error (s : String) (h : ET_fromstring s = none) :
    to_ele (.text s) = Except.error (PyError.parseError ("syntax error")) ∧
    PyError.isXMLError (PyError.parseError ("syntax error")) = false := by
  constructor
  · simp only [to_ele]
    rw [h]
  · rfl

theorem claim_C4_witness :
    ET_fromstring ("<a") = none ∧
    (to_ele (.text ("<a")) = Except.error (PyError.parseError ("syntax error")) ∧
      PyError.isXMLError (PyError.parseError ("syntax error")) = false) :=
  ⟨rfl, claim_C4_to_ele_parse_error ("<a") rfl⟩

/-- C5: for every element and encoding, `to_xml` returns the serialiser
output untouched when it already begins with an XML declaration, and otherwise
returns exactly `<?xml version="1.0" encoding="…"?>` immediately followed by
the serialised element; in both cases the result starts with an XML
declaration, and a second one is never prepended. -/
theorem claim_C5_to_xml_declaration (ele : Element) (encoding : String) :
    (strStartsWith (ET_tostring ele encoding) ("<?xml") = true →
      to_xml ele encoding = ET_tostring ele encoding) ∧
    (strStartsWith (ET_tostring ele encoding) ("<?xml") = false →
      to_xml ele encoding = (("<?xml version=\"1.0\" encoding=\"" ++ encoding) ++ ("\"?>"))
        ++ ET_tostring ele encoding) ∧
    strStartsWith (to_xml ele encoding) ("<?xml") = true := by
  have hpre : strStartsWith ((("<?xml version=\"1.0\" encoding=\"" ++ encoding) ++ ("\"?>"))
      ++ ET_tostring ele encoding) ("<?xml") = true := by
    unfold strStartsWith
    rw [String.data_append, String.data_append, String.data_append]
    rw [show ("<?xml version=\"1.0\" encoding=\"").data
        = ("<?xml").data ++ (" version=\"1.0\" encoding=\"").data from by decide]
    rw [List.append_assoc, List.append_assoc]
    exact startsWithChars_append_left _ _ _ (startsWithChars_self_append _ _)
  refine ⟨?_, ?_, ?_⟩
  · intro h
    unfold to_xml
    rw [if_pos h]
  · intro h
    unfold to_xml
    rw [if_neg (by rw [h]; exact Bool.false_ne_true)]
  · simp only [to_xml]
    cases h : strStartsWith (ET_tostring ele encoding) ("<?xml") with
    | true =>
      rw [if_pos rfl]
      exact h
    | false =>
      rw [if_neg Bool.false_ne_true]
      exact hpre

theorem claim_C5_witness :
    strStartsWith (ET_tostring (Element.mk ("a") [] ("") []) ("UTF-8")) ("<?xml") = true ∧
    to_xml (Element.mk ("a") [] ("") []) ("UTF-8")
      = ET_tostring (Element.mk ("a") [] ("") []) ("UTF-8") :=
  ⟨rfl, (claim_C5_to_xml_declaration (Element.mk ("a") [] ("") []) ("UTF-8")).1 rfl⟩

/-- C7: `qualify t (some n)` produces the canonical `\x7bn\x7dt` form, from
which `(n, t)` is recovered (for namespaces not containing `\x7d`);
`qualify t none` is the unqualified tag `t` itself; and the default namespace
argument is the NETCONF base-1.0 namespace. -/
theorem claim_C7_qualify_roundtrip (t n : String) (h : ∀ c ∈ n.data, c ≠ '}') :
    splitQualified (qualify t (some n)) = (some n, t) ∧
    qualify t none = t ∧
    qualifyD t = qualify t (some BASE_NS_1_0) := by
  refine ⟨?_, rfl, rfl⟩
  have hd : (qualify t (some n)).data = '{' :: (n.data ++ '}' :: t.data) := by
    unfold qualify
    rw [String.data_append, String.data_append]
    simp
  have hall : ∀ c ∈ n.data, ((fun c => c != '}') c) = true := by
    intro c hc
    simpa using h c hc
  unfold splitQualified
  rw [hd]
  simp only [startsWithChars, beq_self_eq_true, Bool.and_self, startsWithChars_nil_pat, if_true,
    List.drop_one, List.tail_cons,
    takeWhile_append_not _ '}' (by decide) n.data t.data hall,
    dropWhile_append_not _ '}' (by decide) n.data t.data hall]

theorem claim_C7_witness :
    (∀ c ∈ (BASE_NS_1_0).data, c ≠ '}') ∧
    (splitQualified (qualify ("data") (some BASE_NS_1_0)) = (some BASE_NS_1_0, "data") ∧
      qualify ("data") none = ("data") ∧
      qualifyD ("data") = qualify ("data") (some BASE_NS_1_0)) :=
  ⟨by decide, claim_C7_qualify_roundtrip ("data") BASE_NS_1_0 (by decide)⟩

/-- C8: `Get.request` with no filter hands the request submitter a `get`
element with no attributes and zero children; with a filter it hands over a
`get` element whose single child is the filter encoding produced by the
external `util.build_filter` collaborator. -/
theorem claim_C8_get_request_shape (build_filter : String → Element) (f : String) :
    Get.request build_filter none = Element.mk ("get") [] ("") [] ∧
    Get.request build_filter (some f) = Element.mk ("get") [] ("") [build_filter f] :=
  ⟨rfl, rfl⟩

/-- C9: `GetConfig.request` hands the request submitter a `get-config`
element whose first child is the `source` encoding produced by the external
`util.datastore_or_url` collaborator (with the capability-assert callback);
when a filter is supplied exactly one further child, the filter encoding,
follows it, and with no filter there is no filter child. -/
theorem claim_C9_get_config_request_shape (α : Type)
    (datastore_or_url : String → String → α → Element)
    (build_filter : String → Element) (assertFn : α) (source : String) (f : String) :
    GetConfig.request datastore_or_url build_filter assertFn source none
      = Element.mk ("get-config") [] ("")
          [datastore_or_url ("source") source assertFn] ∧
    GetConfig.request datastore_or_url build_filter assertFn source (some f)
      = Element.mk ("get-config") [] ("")
          [datastore_or_url ("source") source assertFn, build_filter f] :=
  ⟨rfl, rfl⟩

/-- C10: for every reply on which the base parser recorded at least one
error, the parsing hook stores `None` as the data payload; `data_ele` then
returns `None`, while `data_xml` does not return text or `None` — it fails,
because it unconditionally serialises the stored payload, and serialising
`None` raises. -/
theorem claim_C10_get_reply_error_data (r : GetReply) (h : r.errors ≠ []) :
    r.parsingHook = none ∧ r.data_ele = none ∧
    r.data_xml = Except.error (PyError.typeError ("cannot serialize None (not an Element)")) := by
  have h0 : r.errors.isEmpty = false := by
    cases he : r.errors with
    | nil => exact absurd he h
    | cons a as => rfl
  have hph : r.parsingHook = none := by
    unfold GetReply.parsingHook
    rw [h0]
    simp
  refine ⟨hph, ?_, ?_⟩
  · unfold GetReply.data_ele
    exact hph
  · unfold GetReply.data_xml
    rw [hph]
    rfl

theorem claim_C10_witness :
    ((["error1"] : List String) ≠ []) ∧
    ((GetReply.mk ["error1"] (Element.mk ("rpc-reply") [] ("") [])).parsingHook = none ∧
      (GetReply.mk ["error1"] (Element.mk ("rpc-reply") [] ("") [])).data_ele = none ∧
      (GetReply.mk ["error1"] (Element.mk ("rpc-reply") [] ("") [])).data_xml
        = Except.error (PyError.typeError ("cannot serialize None (not an Element)"))) :=
  ⟨by decide, claim_C10_get_reply_error_data _ (by decide)⟩

theorem claim_C1_witness :
    to_ele (XmlInput.element (Element.mk ("a") [("message-id","1")] ("") []))
      = Except.ok (Element.mk ("a") [("message-id","1")] ("") []) ∧
    validated_element (XmlInput.element (Element.mk ("a") [("message-id","1")] ("") []))
      none (some [StrOrSeq.seq ["message-id","id"]])
      = Except.ok (Element.mk ("a") [("message-id","1")] ("") []) := by
  refine ⟨rfl, ?_⟩
  refine (claim_C1_validated_element_attr_groups
    (XmlInput.element (Element.mk ("a") [("message-id","1")] ("") []))
    (Element.mk ("a") [("message-id","1")] ("") []) rfl
    [StrOrSeq.seq ["message-id","id"]]).1.mpr ?_
  intro req hreq
  rw [List.mem_singleton] at hreq
  subst hreq
  exact ⟨"message-id", by simp [strOrSeqList], "1", by simp [Element.attrib]⟩

theorem claim_C2_witness :
    to_ele (XmlInput.element (Element.mk ("rpc-reply") [] ("") []))
      = Except.ok (Element.mk ("rpc-reply") [] ("") []) ∧
    truthyOpt (some (StrOrSeq.seq ["rpc-reply"])) = true ∧
    validated_element (XmlInput.element (Element.mk ("rpc-reply") [] ("") []))
      (some (StrOrSeq.seq ["rpc-reply"])) none
      = Except.ok (Element.mk ("rpc-reply") [] ("") []) := by
  refine ⟨rfl, rfl, ?_⟩
  refine (claim_C2_validated_element_tag_check
    (XmlInput.element (Element.mk ("rpc-reply") [] ("") []))
    (Element.mk ("rpc-reply") [] ("") []) rfl (StrOrSeq.seq ["rpc-reply"]) rfl none
    (fun hx => absurd hx (by decide))).2 ?_
  simp [strOrSeqList, Element.tag]

set_option maxRecDepth 10000

